import Mathlib

/-!
Verification development for the CDM Trellis Project.

Shallow embedding of the repository sources:
 - Trellis.py : the trellis automaton (class Trellis), its transition step
   (update), ball drops (drop_ball, drop_balls), reset, identity test,
   integer encoding (encoded_trellis) and the orbit and period computations
   (get_orbit, get_period).
 - GroupActions.py : the rewrite-rule generator (getRewrites) and the
   word-reduction engine (reduce).

Conventions of the embedding:
 - A slot state is a Bool; LEFT = true as in the source.
 - The switch grid is a List (List Bool); row i of a well-formed grid has
   cols - i % 2 slots.
 - Python exceptions and failed assertions are modelled with Option (none).
 - Loops whose termination is itself in question take an explicit fuel
   argument; none means the fuel ran out before the loop finished.
 - Counter objects over the alphabet are modelled as integer vectors
   (List Int) aligned with the alphabet list, the representation the
   specification itself gives for Words and rewrite rules.
-/

def LEFT : Bool := true

def RIGHT : Bool := false

abbrev Grid := List (List Bool)

/-- Reading slot (i, j) of the grid, self.trellis[i][j] in the source. The
theorems only ever use this in bounds; an out-of-bounds read defaults to
LEFT, and the bounds themselves are tracked by the inBounds predicate. -/
def gridGet (g : Grid) (i j : Nat) : Bool :=
  (g.getD i []).getD j LEFT

/-- Trellis.flip_state: toggles the state at (i, j). -/
def flipGrid (g : Grid) (i j : Nat) : Grid :=
  g.set i ((g.getD i []).set j (!(g.getD i []).getD j LEFT))

/-- Row lengths of a grid; two grids of the same trellis dimensions share it. -/
def gridShape (g : Grid) : List Nat :=
  g.map List.length

/-- The grid the constructor and reset build: rows rows, row i holding
cols - i % 2 slots, every slot LEFT. -/
def initialGrid (rows cols : Nat) : Grid :=
  (List.range rows).map (fun i => List.replicate (cols - i % 2) LEFT)

/-- A slot position the automaton may legally address: row below rows and
column below the length of that row (cols on even rows, cols - 1 on odd
rows). Python indexing raises IndexError outside of this. -/
def inBounds (rows cols : Nat) (p : Nat × Nat) : Bool :=
  decide (p.1 < rows) && decide (p.2 < cols - p.1 % 2)

/-- The state of one Trellis object: grid, ball position, path trace, and
the derived constants of the instance. -/
structure Trellis where
  height : Nat
  width : Nat
  rows : Nat
  cols : Nat
  period : Nat
  trellis : Grid
  ball_position : Option (Nat × Nat)
  atomic : List Char
  ball_path : List (Nat × Nat)
deriving Repr, DecidableEq

/-- Trellis.__init__ (rows = 2 h + 1, cols = w + 1, period = 2 ^ rows, all
slots LEFT, no ball, atomic alphabet of cols letters). int_to_char would
raise for cols > 26; theorems about letters carry cols le 26. -/
def mkTrellis (h w : Nat) : Trellis :=
  let rows := 2 * h + 1
  let cols := w + 1
  { height := h
    width := w
    rows := rows
    cols := cols
    period := 2 ^ rows
    trellis := initialGrid rows cols
    ball_position := none
    atomic := (List.range cols).map (fun i => Char.ofNat (97 + i))
    ball_path := [] }

/-- Trellis.char_to_int: ord(char.lower()) - ord('a'). -/
def Trellis.char_to_int (_t : Trellis) (c : Char) : Nat :=
  c.toLower.toNat - 97

/-- Trellis.is_valid_action: char.lower() in self.atomic. -/
def Trellis.is_valid_action (t : Trellis) (c : Char) : Bool :=
  t.atomic.contains c.toLower

/-- Trellis.is_valid_element: every letter is a valid action. -/
def Trellis.is_valid_element (t : Trellis) (s : List Char) : Bool :=
  s.all t.is_valid_action

/-- Trellis.goes_left: the state at the current ball position (only called
by the source with a ball in flight). -/
def Trellis.goes_left (t : Trellis) : Bool :=
  match t.ball_position with
  | some (row, col) => gridGet t.trellis row col
  | none => LEFT

/-- Trellis.is_identity: every slot is LEFT. -/
def Trellis.is_identity (t : Trellis) : Bool :=
  t.trellis.all (fun row => row.all (fun b => b))

/-- Trellis.reset: all slots LEFT again, ball path cleared; the other
fields, ball_position included, stay. -/
def Trellis.reset (t : Trellis) : Trellis :=
  { t with trellis := initialGrid t.rows t.cols, ball_path := [] }

/-- The next ball position that Trellis.update computes from the grid as it
stands before the flip: exit on the last row, otherwise the odd-row or
even-row branch of the transition table. -/
def nextPos (g : Grid) (rows cols : Nat) (row col : Nat) : Option (Nat × Nat) :=
  if row = rows - 1 then
    none
  else if row % 2 = 1 then
    if gridGet g row col then some (row + 1, col) else some (row + 1, col + 1)
  else if col = 0 then
    if gridGet g row col then some (row + 2, col) else some (row + 1, col)
  else if col = cols - 1 then
    if gridGet g row col then some (row + 1, col - 1) else some (row + 2, col)
  else
    if gridGet g row col then some (row + 1, col - 1) else some (row + 1, col)

/-- Trellis.update: with no ball, clear the path and report False; with a
ball at (row, col), record the position on the path, move the ball following
the transition table read off the pre-flip grid, then flip (row, col), and
report True. -/
def Trellis.update (t : Trellis) : Trellis × Bool :=
  match t.ball_position with
  | none => ({ t with ball_path := [] }, false)
  | some (row, col) =>
      ({ t with
          ball_path := t.ball_path ++ [(row, col)]
          ball_position := nextPos t.trellis t.rows t.cols row col
          trellis := flipGrid t.trellis row col }, true)

/-- The while self.update() loop of drop_ball, with fuel. -/
def Trellis.dropLoop : Nat → Trellis → Option Trellis
  | 0, _ => none
  | fuel + 1, t =>
      match t.update with
      | (t', false) => some t'
      | (t', true) => Trellis.dropLoop fuel t'

/-- Trellis.drop_ball: asserts no ball is in flight and the letter is valid
(modelled as none), then places the ball at (0, slot) and iterates update
until the ball leaves. Fuel rows + 2 covers any fall: the row grows with
every step. -/
def Trellis.drop_ball (t : Trellis) (c : Char) : Option Trellis :=
  if t.ball_position.isSome then none
  else if ¬ t.is_valid_action c then none
  else Trellis.dropLoop (t.rows + 2) { t with ball_position := some (0, t.char_to_int c) }

/-- Trellis.drop_balls: one drop_ball per letter, left to right. -/
def Trellis.drop_balls (t : Trellis) (s : List Char) : Option Trellis :=
  s.foldlM Trellis.drop_ball t

/-- Trellis.encoded_trellis: the flattened grid read as a bitstring, slot
index = bit position. -/
def encodeGrid (g : Grid) : Nat :=
  (g.flatten.enum.map (fun p => (if p.2 then 1 else 0) <<< p.1)).sum

def Trellis.encoded_trellis (t : Trellis) : Nat :=
  encodeGrid t.trellis

/-- The fall of one ball at the grid level: the trace of visited slots and
the final grid; each visited slot is read by goes_left (except on the last
row) and flipped, exactly as update does. -/
def fall (rows cols : Nat) : Nat → Grid → Nat × Nat → Option (Grid × List (Nat × Nat))
  | 0, _, _ => none
  | fuel + 1, g, p =>
      match nextPos g rows cols p.1 p.2 with
      | none => some (flipGrid g p.1 p.2, [p])
      | some p' => (fall rows cols fuel (flipGrid g p.1 p.2) p').map (fun r => (r.1, p :: r.2))

/-- The slots one drop of the letter visits (each is read and flipped by
the source, so a Python run raises IndexError unless all are inBounds). -/
def Trellis.dropPath (t : Trellis) (c : Char) : List (Nat × Nat) :=
  match fall t.rows t.cols (t.rows + 1) t.trellis (0, t.char_to_int c) with
  | some r => r.2
  | none => []

/-- One ball drop viewed as a map on grids alone. -/
def dropConfig (rows cols slot : Nat) (g : Grid) : Option Grid :=
  (fall rows cols (rows + 1) g (0, slot)).map Prod.fst

/-- One word (a list of entry slots) acting on a grid, drop after drop. -/
def applyWordConfig (rows cols : Nat) (slots : List Nat) (g : Grid) : Option Grid :=
  slots.foldlM (fun g s => dropConfig rows cols s g) g

/-- The grid after k applications of the word to the identity grid. -/
def iterWordConfig (rows cols : Nat) (slots : List Nat) : Nat → Option Grid
  | 0 => some (initialGrid rows cols)
  | k + 1 => (iterWordConfig rows cols slots k).bind (applyWordConfig rows cols slots)

/-- The automaton after k applications of dropAll(chars) to the freshly
reset automaton (ball cleared first, as get_orbit does). -/
def Trellis.applyWordIter (t : Trellis) (chars : List Char) : Nat → Option Trellis
  | 0 => some { t.reset with ball_position := none }
  | k + 1 => (t.applyWordIter chars k).bind (fun u => u.drop_balls chars)

namespace GroupActions

/-- Helper _invert: flips a tuple, from (6,-2,-2) to (-6,2,2). -/
def _invert (t : List Int) : List Int :=
  t.map (fun x => -x)

/-- itertools.product(choices, repeat=m), in the same order (the last
coordinate varies fastest). -/
def productTuples (choices : List Int) : Nat → List (List Int)
  | 0 => [[]]
  | m + 1 => choices.flatMap (fun a => (productTuples choices m).map (fun t => a :: t))

/-- The helper reducingTuple of getRewrites, threading the seen-set
already_seen_reversible_rewrites: weight-negative tuples stay, weight-
positive tuples are inverted, weight-zero tuples are kept (when weight-
preserving rewrites are allowed) unless already seen, in which case the
inverse is recorded as seen. -/
def reducingTuple (strict : Bool) (seen : List (List Int)) (t : List Int) :
    Option (List Int) × List (List Int) :=
  if t.sum < 0 then (some t, seen)
  else if 0 < t.sum then (some (_invert t), seen)
  else if strict = false then
    (if t ∈ seen then (none, seen) else (some t, _invert t :: seen))
  else (none, seen)

/-- Run reducingTuple over a round of candidate tuples, collecting the kept
rewrites and the grown seen-set. -/
def processTuples (strict : Bool) : List (List Int) → List (List Int) →
    List (List Int) × List (List Int)
  | [], seen => ([], seen)
  | t :: ts, seen =>
      match reducingTuple strict seen t with
      | (some r, seen') =>
          let rest := processTuples strict ts seen'
          (r :: rest.1, rest.2)
      | (none, seen') => processTuples strict ts seen'

/-- range(2, period // 2 + 1, 2): the even n from 2 up to period / 2. -/
def nvals (period : Nat) : List Nat :=
  (List.range (period / 2 + 1)).filter (fun n => decide (2 ≤ n) && decide (n % 2 = 0))

/-- The rounds of getRewrites: for each n the candidates are the tuples over
the pair -n, period - n; each round is deduplicated (Python turns it into a
set, whose iteration order is unspecified; no theorem below depends on the
order) and appended. -/
def getRewritesGo (strict : Bool) (m period : Nat) :
    List Nat → List (List Int) → List (List Int)
  | [], _ => []
  | n :: ns, seen =>
      let step := processTuples strict (productTuples [-(n : Int), (period : Int) - n] m) seen
      step.1.dedup ++ getRewritesGo strict m period ns step.2

/-- getRewrites of GroupActions.py, rewrite Counters as vectors over the
alphabet (tupleToCounter zips the alphabet with the tuple, so only the
alphabet length matters here). -/
def getRewrites (chars : List Char) (period : Nat) (strict : Bool) : List (List Int) :=
  getRewritesGo strict chars.length period (nvals period) []

/-- Counter(action): the count vector of a word over the alphabet list. -/
def toVector (chars : List Char) (s : List Char) : List Int :=
  chars.map (fun c => (s.count c : Int))

/-- Insertion of a character into a sorted list of characters. -/
def insertChar (c : Char) : List Char → List Char
  | [] => [c]
  | d :: ds => if c ≤ d then c :: d :: ds else d :: insertChar c ds

def sortChars (l : List Char) : List Char :=
  l.foldr insertChar []

/-- Python sorted(action.elements()) joined: each letter repeated by its
count, the whole word sorted. -/
def counterToStr (chars : List Char) (v : List Int) : String :=
  String.mk (sortChars ((chars.zip v).flatMap (fun p => List.replicate p.2.toNat p.1)))

/-- The applicability test of reduceStep: every coordinate of action +
rewrite stays nonnegative. -/
def applicable (v r : List Int) : Bool :=
  (v.zip r).all (fun p => decide (0 ≤ p.1 + p.2))

/-- Counter addition action + rewrite, as vectors over the alphabet. -/
def addVec (v r : List Int) : List Int :=
  (v.zip r).map (fun p => p.1 + p.2)

/-- reduceStep: one scan over the rule list; every rule applicable at the
moment the scan reaches it is applied at once, and the scan continues from
the next rule with the updated vector. -/
def reduceStep (rewrites : List (List Int)) (v : List Int) : List Int :=
  rewrites.foldl (fun v r => if applicable v r then addVec v r else v) v

/-- The while-True loop of reduce: iterate reduceStep until a scan leaves
the vector unchanged; none = no fixpoint within fuel scans. -/
def reduceLoop (rewrites : List (List Int)) : Nat → List Int → Option (List Int)
  | 0, _ => none
  | fuel + 1, v =>
      let v' := reduceStep rewrites v
      if v' = v then some v else reduceLoop rewrites fuel v'

/-- reduce: lowercase the word and the alphabet, reject (outer none, the
ValueError of the source) a word with a letter outside the alphabet, then
run the rewrite loop; some none means the loop found no fixpoint within
fuel scans, some (some s) is the canonical string. -/
def reduce (fuel : Nat) (action : List Char) (rewrites : List (List Int))
    (chars : List Char) : Option (Option String) :=
  let action := action.map Char.toLower
  let chars := chars.map Char.toLower
  if action.all (fun c => decide (c ∈ chars)) then
    some ((reduceLoop rewrites fuel (toVector chars action)).map (counterToStr chars))
  else none

/-- The loop never reaches a fixpoint, whatever the fuel bound: the Python
call loops forever. -/
def reduceDiverges (action : List Char) (rewrites : List (List Int))
    (chars : List Char) : Prop :=
  ∀ fuel, reduce fuel action rewrites chars = some none

/-- The strategy in the words of the specification: scan the rule list from
the top and, at the FIRST applicable rule, apply it and restart the scan
from the top of the list against the updated vector; stop when no rule of
the list applies. -/
def specRestartStep (rewrites : List (List Int)) (v : List Int) : Option (List Int) :=
  (rewrites.find? (fun r => applicable v r)).map (fun r => addVec v r)

def specRestartLoop (rewrites : List (List Int)) : Nat → List Int → Option (List Int)
  | 0, _ => none
  | fuel + 1, v =>
      match specRestartStep rewrites v with
      | none => some v
      | some v' => specRestartLoop rewrites fuel v'

/-- reduce as the specification describes it: first applicable rule, then
restart from the top. -/
def specRestartReduce (fuel : Nat) (action : List Char) (rewrites : List (List Int))
    (chars : List Char) : Option (Option String) :=
  let action := action.map Char.toLower
  let chars := chars.map Char.toLower
  if action.all (fun c => decide (c ∈ chars)) then
    some ((specRestartLoop rewrites fuel (toVector chars action)).map (counterToStr chars))
  else none

/-- One scan as the amended claim words it: walk the rule list once in
order; each time the rule reached is applicable to the current vector, add
it immediately and continue the scan from the NEXT rule with the updated
vector; a scan that changes nothing ends the reduction. -/
def scanOnce : List (List Int) → List Int → List Int
  | [], v => v
  | r :: rs, v => scanOnce rs (if applicable v r then addVec v r else v)

def scanReduceLoop (rewrites : List (List Int)) : Nat → List Int → Option (List Int)
  | 0, _ => none
  | fuel + 1, v =>
      let v' := scanOnce rewrites v
      if v' = v then some v else scanReduceLoop rewrites fuel v'

/-- reduce as the amended claim describes it. -/
def scanReduce (fuel : Nat) (action : List Char) (rewrites : List (List Int))
    (chars : List Char) : Option (Option String) :=
  let action := action.map Char.toLower
  let chars := chars.map Char.toLower
  if action.all (fun c => decide (c ∈ chars)) then
    some ((scanReduceLoop rewrites fuel (toVector chars action)).map (counterToStr chars))
  else none

end GroupActions

/-- Trellis.get_rewrites: the rewrite rules for this trellis. -/
def Trellis.get_rewrites (t : Trellis) (strict : Bool) : List (List Int) :=
  GroupActions.getRewrites t.atomic t.period strict

/-- Trellis.reduce: reduce an action with the rewrite rules of the trellis.
With the strictly weight-reducing rules every scan that changes the vector
lowers its total weight, so weight-of-the-word + 1 scans always reach the
fixpoint (proved below); the fuel is fixed accordingly. -/
def Trellis.reduce (t : Trellis) (action : List Char) (strict : Bool) :
    Option (Option String) :=
  GroupActions.reduce
    ((GroupActions.toVector (t.atomic.map Char.toLower)
        (action.map Char.toLower)).sum.toNat + 1)
    action (t.get_rewrites strict) t.atomic

/-- Python string repetition chars * count. -/
def repeatWord (s : List Char) (n : Nat) : List Char :=
  (List.replicate n s).flatten

/-- Number of slots of the trellis grid. -/
def numSlots (rows cols : Nat) : Nat :=
  ((List.range rows).map (fun i => cols - i % 2)).sum

/-- The while-True loop of get_orbit: reduce start + chars * count into the
orbit, drop the word, and stop once the encoding returns to the initial
one. -/
def Trellis.orbitLoop (chars start : List Char) (strict : Bool) (initial : Nat) :
    Nat → Nat → List String → Trellis → Option (List String)
  | 0, _, _, _ => none
  | fuel + 1, count, orbit, t =>
      match t.reduce (start ++ repeatWord chars count) strict with
      | none => none
      | some none => none
      | some (some s) =>
          match t.drop_balls chars with
          | none => none
          | some t' =>
              if t'.encoded_trellis = initial then some (orbit ++ [s])
              else Trellis.orbitLoop chars start strict initial fuel (count + 1) (orbit ++ [s]) t'

/-- Trellis.get_orbit: validate, reset (the ball is cleared as in the
source), drop the start word, then loop. The fuel 2 ^ numSlots + 1 covers
the longest possible first return of the finite configuration space
(proved below). -/
def Trellis.get_orbit (t : Trellis) (chars start : List Char) (strict : Bool) :
    Option (List String) :=
  if t.is_valid_element chars && t.is_valid_element start then
    let t1 := { t.reset with ball_position := none }
    match t1.drop_balls start with
    | none => none
    | some t2 =>
        Trellis.orbitLoop chars start strict t2.encoded_trellis
          (2 ^ numSlots t.rows t.cols + 1) 0 [] t2
  else none

/-- Trellis.get_period: the length of the orbit of chars from the identity
(get_orbit with the empty start). -/
def Trellis.get_period (t : Trellis) (chars : List Char) (strict : Bool) : Option Nat :=
  (t.get_orbit chars [] strict).map List.length

/-! ### Small list lemmas used throughout -/

theorem list_set_getD_self {α : Type} (l : List α) (n : Nat) (d : α) :
    l.set n (l.getD n d) = l := by
  induction l generalizing n with
  | nil => rfl
  | cons a l ih =>
      cases n with
      | zero => rfl
      | succ n => simpa using ih n

theorem list_getD_set_self {α : Type} (l : List α) (n : Nat) (a d : α)
    (h : n < l.length) : (l.set n a).getD n d = a := by
  induction l generalizing n with
  | nil => simp at h
  | cons b l ih =>
      cases n with
      | zero => rfl
      | succ n => simpa using ih n (by simpa using h)

theorem list_getD_set_ne {α : Type} (l : List α) (n m : Nat) (a d : α)
    (h : n ≠ m) : (l.set n a).getD m d = l.getD m d := by
  induction l generalizing n m with
  | nil => rfl
  | cons b l ih =>
      cases n with
      | zero => cases m with
          | zero => exact absurd rfl h
          | succ m => rfl
      | succ n =>
          cases m with
          | zero => rfl
          | succ m => simpa using ih n m (by omega)

/-! ### Flip lemmas -/

theorem map_length_getD (g : Grid) (i : Nat) (h : i < g.length) :
    (g.map List.length).getD i 0 = (g.getD i []).length := by
  induction g generalizing i with
  | nil => simp at h
  | cons r g ih =>
      cases i with
      | zero => rfl
      | succ i => simpa using ih i (by simpa using h)

theorem flipGrid_shape (g : Grid) (i j : Nat) :
    gridShape (flipGrid g i j) = gridShape g := by
  unfold flipGrid gridShape
  by_cases hi : i < g.length
  · have hlen : ((g.getD i []).set j (!(g.getD i []).getD j LEFT)).length = (g.getD i []).length := by
      simp
    rw [List.map_set, hlen, ← map_length_getD g i hi, list_set_getD_self]
  · rw [List.set_eq_of_length_le (by omega)]

theorem flipGrid_flipGrid (g : Grid) (i j : Nat) :
    flipGrid (flipGrid g i j) i j = g := by
  by_cases hi : i < g.length
  · by_cases hj : j < (g.getD i []).length
    · unfold flipGrid
      have hrow : (g.set i ((g.getD i []).set j (!(g.getD i []).getD j LEFT))).getD i []
          = (g.getD i []).set j (!(g.getD i []).getD j LEFT) :=
        list_getD_set_self g i _ [] hi
      have hb : ((g.getD i []).set j (!(g.getD i []).getD j LEFT)).getD j LEFT
          = !(g.getD i []).getD j LEFT :=
        list_getD_set_self _ j _ LEFT (by simpa using hj)
      simp only [hrow, hb, Bool.not_not, List.set_set, list_set_getD_self]
    · have hrow : (g.getD i []).set j (!(g.getD i []).getD j LEFT) = g.getD i [] :=
        List.set_eq_of_length_le (by omega)
      have flipg : flipGrid g i j = g := by
        unfold flipGrid
        rw [hrow, list_set_getD_self]
      rw [flipg, flipg]
  · have flipg : flipGrid g i j = g := by
      unfold flipGrid
      exact List.set_eq_of_length_le (by omega)
    rw [flipg, flipg]

theorem gridGet_flipGrid_self (g : Grid) (i j : Nat)
    (hi : i < g.length) (hj : j < (g.getD i []).length) :
    gridGet (flipGrid g i j) i j = !(gridGet g i j) := by
  unfold gridGet flipGrid
  rw [list_getD_set_self g i _ [] hi, list_getD_set_self _ j _ LEFT (by simpa using hj)]

theorem gridGet_flipGrid_ne (g : Grid) (i j i' j' : Nat)
    (h : i ≠ i' ∨ j ≠ j') : gridGet (flipGrid g i j) i' j' = gridGet g i' j' := by
  unfold gridGet flipGrid
  rcases h with h | h
  · rw [list_getD_set_ne g i i' _ [] h]
  · by_cases hii : i = i'
    · subst hii
      by_cases hi : i < g.length
      · rw [list_getD_set_self g i _ [] hi, list_getD_set_ne _ j j' _ LEFT h]
      · rw [List.set_eq_of_length_le (by omega)]
    · rw [list_getD_set_ne g i i' _ [] hii]

theorem flipGrid_length (g : Grid) (i j : Nat) : (flipGrid g i j).length = g.length := by
  unfold flipGrid; simp

theorem gridShape_length {g1 g2 : Grid} (h : gridShape g1 = gridShape g2) :
    g1.length = g2.length := by
  have := congrArg List.length h
  simpa [gridShape] using this

theorem gridShape_row {g1 g2 : Grid} (h : gridShape g1 = gridShape g2) (i : Nat) :
    (g1.getD i []).length = (g2.getD i []).length := by
  by_cases hi : i < g1.length
  · have h2 : i < g2.length := gridShape_length h ▸ hi
    have := congrArg (fun l => l.getD i 0) h
    simpa [gridShape, List.getD_map, hi, h2] using this
  · have h2 : ¬ i < g2.length := by rw [← gridShape_length h]; exact hi
    rw [List.getD_eq_default _ _ (by omega), List.getD_eq_default _ _ (by omega)]

/-! ### Encoding: the flattened bitstring (claim C8) -/

/-- Binary value of a bit list, least significant bit first. -/
def bitsToNat : List Bool → Nat
  | [] => 0
  | b :: bs => (if b then 1 else 0) + 2 * bitsToNat bs

theorem enumFrom_shift_sum (l : List Bool) : ∀ n : Nat,
    ((List.enumFrom n l).map (fun p => (if p.2 then 1 else 0) <<< p.1)).sum
      = 2 ^ n * bitsToNat l := by
  induction l with
  | nil => intro n; simp [bitsToNat]
  | cons b bs ih =>
      intro n
      have hcons : List.enumFrom n (b :: bs) = (n, b) :: List.enumFrom (n + 1) bs := rfl
      rw [hcons, List.map_cons, List.sum_cons, ih (n + 1)]
      show (if b then 1 else 0) <<< n + 2 ^ (n + 1) * bitsToNat bs
          = 2 ^ n * ((if b then 1 else 0) + 2 * bitsToNat bs)
      rw [Nat.shiftLeft_eq]
      ring

theorem encodeGrid_eq_bitsToNat (g : Grid) : encodeGrid g = bitsToNat g.flatten := by
  unfold encodeGrid
  have h := enumFrom_shift_sum g.flatten 0
  simpa [List.enum] using h

theorem bitsToNat_lt (l : List Bool) : bitsToNat l < 2 ^ l.length := by
  induction l with
  | nil => simp [bitsToNat]
  | cons b bs ih =>
      cases b <;> simp [bitsToNat, List.length_cons, Nat.pow_succ] <;> omega

theorem bitsToNat_inj (l1 : List Bool) : ∀ l2 : List Bool, l1.length = l2.length →
    bitsToNat l1 = bitsToNat l2 → l1 = l2 := by
  induction l1 with
  | nil =>
      intro l2 h _
      cases l2 with
      | nil => rfl
      | cons c cs => simp at h
  | cons b bs ih =>
      intro l2 h he
      cases l2 with
      | nil => simp at h
      | cons c cs =>
          have hlen : bs.length = cs.length := by simpa using h
          cases b <;> cases c
          · have hb : bitsToNat bs = bitsToNat cs := by simp [bitsToNat] at he; omega
            rw [ih cs hlen hb]
          · exfalso; simp [bitsToNat] at he; omega
          · exfalso; simp [bitsToNat] at he; omega
          · have hb : bitsToNat bs = bitsToNat cs := by simp [bitsToNat] at he; omega
            rw [ih cs hlen hb]

theorem flatten_inj_of_shape {g1 : Grid} : ∀ {g2 : Grid}, gridShape g1 = gridShape g2 →
    g1.flatten = g2.flatten → g1 = g2 := by
  induction g1 with
  | nil =>
      intro g2 h _
      cases g2 with
      | nil => rfl
      | cons r2 rest2 => simp [gridShape] at h
  | cons r1 rest1 ih =>
      intro g2 h he
      cases g2 with
      | nil => simp [gridShape] at h
      | cons r2 rest2 =>
          have hlen : r1.length = r2.length ∧ gridShape rest1 = gridShape rest2 := by
            constructor
            · simpa [gridShape] using congrArg (fun l => l.headI) h
            · simpa [gridShape] using congrArg List.tail h
          have hsplit := List.append_inj (by simpa using he) hlen.1
          rw [hsplit.1, ih hlen.2 hsplit.2]

theorem encode_inj_of_shape {g1 g2 : Grid} (hshape : gridShape g1 = gridShape g2) :
    encodeGrid g1 = encodeGrid g2 ↔ g1 = g2 := by
  constructor
  · intro he
    have hlen : g1.flatten.length = g2.flatten.length := by
      simp only [List.length_flatten]
      exact congrArg List.sum hshape
    refine flatten_inj_of_shape hshape (bitsToNat_inj _ _ hlen ?_)
    rw [← encodeGrid_eq_bitsToNat, ← encodeGrid_eq_bitsToNat]
    exact he
  · intro hg
    rw [hg]

/-- C8: encode is injective on Configurations of a fixed trellis dimension:
two grids of the same shape have equal encodings exactly when they agree
slot for slot. -/
theorem C8_encode_injective (g1 g2 : Grid) (hshape : gridShape g1 = gridShape g2) :
    encodeGrid g1 = encodeGrid g2 ↔ g1 = g2 :=
  encode_inj_of_shape hshape

/-- Witness for C8 at a concrete pair of grids of equal shape. -/
theorem C8_encode_injective_witness :
    gridShape [[true, false], [true]] = gridShape [[false, false], [true]] ∧
    (encodeGrid [[true, false], [true]] = encodeGrid [[false, false], [true]] ↔
      ([[true, false], [true]] : Grid) = [[false, false], [true]]) :=
  ⟨rfl, C8_encode_injective [[true, false], [true]] [[false, false], [true]] rfl⟩

/-! ### Claim C10: reset -/

/-- C10: reset sets every slot of the Configuration to LEFT and clears the
path trace, and changes nothing else: the ball position is untouched and
the dimensions, period and alphabet are unchanged. -/
theorem C10_reset_frame (t : Trellis) :
    (∀ row ∈ (t.reset).trellis, ∀ b ∈ row, b = LEFT) ∧
    (t.reset).trellis = initialGrid t.rows t.cols ∧
    (t.reset).ball_path = [] ∧
    (t.reset).ball_position = t.ball_position ∧
    (t.reset).height = t.height ∧ (t.reset).width = t.width ∧
    (t.reset).rows = t.rows ∧ (t.reset).cols = t.cols ∧
    (t.reset).period = t.period ∧ (t.reset).atomic = t.atomic := by
  refine ⟨?_, rfl, rfl, rfl, rfl, rfl, rfl, rfl, rfl, rfl⟩
  intro row hrow b hb
  unfold Trellis.reset initialGrid at hrow
  simp only [List.mem_map, List.mem_range] at hrow
  obtain ⟨i, _, hrw⟩ := hrow
  rw [← hrw] at hb
  exact List.eq_of_mem_replicate hb

/-! ### Claim C1: the transition step -/

/-- The transition table exactly as the specification and claim C1 word it:
if the row is the last row the ball exits; on an odd row a LEFT slot sends
it to (row+1, col) and a RIGHT slot to (row+1, col+1); on an even row,
column 0 LEFT sends it to (row+2, col) and RIGHT to (row+1, col), the last
column LEFT sends it to (row+1, col-1) and RIGHT to (row+2, col), and an
interior column LEFT sends it to (row+1, col-1) and RIGHT to (row+1, col). -/
def specNext (g : Grid) (rows cols row col : Nat) : Option (Nat × Nat) :=
  if row = rows - 1 then
    none
  else if row % 2 = 1 then
    (if gridGet g row col = LEFT then some (row + 1, col) else some (row + 1, col + 1))
  else if col = 0 then
    (if gridGet g row col = LEFT then some (row + 2, col) else some (row + 1, col))
  else if col = cols - 1 then
    (if gridGet g row col = LEFT then some (row + 1, col - 1) else some (row + 2, col))
  else
    (if gridGet g row col = LEFT then some (row + 1, col - 1) else some (row + 1, col))

theorem nextPos_eq_specNext (g : Grid) (rows cols row col : Nat) :
    nextPos g rows cols row col = specNext g rows cols row col := rfl

/-- C1: with a ball at (row, col), update reports a ball still in play, the
new ball position follows the transition table of the specification read
off the grid as it stood before the flip, and the slot (row, col) is then
flipped, in every case the exit step included (and, in bounds, the stored
state at (row, col) is negated). -/
theorem C1_transition_step (t : Trellis) (row col : Nat)
    (hball : t.ball_position = some (row, col)) :
    (t.update).2 = true ∧
    (t.update).1.ball_position = specNext t.trellis t.rows t.cols row col ∧
    (t.update).1.trellis = flipGrid t.trellis row col ∧
    (t.update).1.ball_path = t.ball_path ++ [(row, col)] ∧
    (row < t.trellis.length → col < (t.trellis.getD row []).length →
      gridGet (t.update).1.trellis row col = !(gridGet t.trellis row col)) := by
  unfold Trellis.update
  rw [hball]
  refine ⟨rfl, nextPos_eq_specNext _ _ _ _ _, rfl, rfl, ?_⟩
  intro hr hc
  exact gridGet_flipGrid_self t.trellis row col hr hc

/-- Input for the C1 witness: the default trellis with the ball at (0, 1). -/
def c1WitnessTrellis : Trellis :=
  { mkTrellis 1 2 with ball_position := some (0, 1) }

/-- Witness for C1 at a concrete automaton state. -/
theorem C1_transition_step_witness :
    c1WitnessTrellis.ball_position = some (0, 1) ∧
    ((c1WitnessTrellis.update).2 = true ∧
     (c1WitnessTrellis.update).1.ball_position
        = specNext c1WitnessTrellis.trellis c1WitnessTrellis.rows c1WitnessTrellis.cols 0 1 ∧
     (c1WitnessTrellis.update).1.trellis = flipGrid c1WitnessTrellis.trellis 0 1 ∧
     (c1WitnessTrellis.update).1.ball_path = c1WitnessTrellis.ball_path ++ [(0, 1)] ∧
     (0 < c1WitnessTrellis.trellis.length →
      1 < (c1WitnessTrellis.trellis.getD 0 []).length →
      gridGet (c1WitnessTrellis.update).1.trellis 0 1
        = !(gridGet c1WitnessTrellis.trellis 0 1))) :=
  ⟨rfl, C1_transition_step c1WitnessTrellis 0 1 rfl⟩

/-! ### Rule generation: weights and inverse pairs (claim C4) -/

namespace GroupActions

theorem sum_invert (t : List Int) : (_invert t).sum = -t.sum := by
  unfold _invert
  induction t with
  | nil => simp
  | cons a t ih =>
      simp only [List.map_cons, List.sum_cons, ih]
      ring

theorem invert_invert (t : List Int) : _invert (_invert t) = t := by
  unfold _invert
  simp

theorem invert_length (t : List Int) : (_invert t).length = t.length := by
  unfold _invert
  simp

/-- The invariant carried through rule generation: every kept rewrite has
nonpositive weight (negative when strict); a kept weight-zero rewrite has
its inverse in the seen-set; and no two kept rewrites are mutually inverse
(apart from a vector that is its own inverse, the empty-alphabet case). -/
def RulesInv (strict : Bool) (seen out : List (List Int)) : Prop :=
  (∀ r ∈ out, r.sum ≤ 0 ∧ (strict = true → r.sum < 0)) ∧
  (∀ r ∈ out, r.sum = 0 → _invert r ∈ seen) ∧
  (∀ r ∈ out, _invert r ∈ out → _invert r = r)

theorem rulesInv_mono_out {strict : Bool} {seen out out' : List (List Int)}
    (hsub : ∀ r ∈ out', r ∈ out) (h : RulesInv strict seen out) :
    RulesInv strict seen out' :=
  ⟨fun r hr => h.1 r (hsub r hr), fun r hr => h.2.1 r (hsub r hr),
   fun r hr hi => h.2.2 r (hsub r hr) (hsub _ hi)⟩

theorem rulesInv_mono_seen {strict : Bool} {seen seen' out : List (List Int)}
    (hsub : ∀ x ∈ seen, x ∈ seen') (h : RulesInv strict seen out) :
    RulesInv strict seen' out :=
  ⟨h.1, fun r hr h0 => hsub _ (h.2.1 r hr h0), h.2.2⟩

theorem rulesInv_snoc_neg {strict : Bool} {seen out : List (List Int)} {r : List Int}
    (h : RulesInv strict seen out) (hr : r.sum < 0) :
    RulesInv strict seen (out ++ [r]) := by
  obtain ⟨ha, hb, hc⟩ := h
  refine ⟨?_, ?_, ?_⟩
  · intro x hx
    rcases List.mem_append.1 hx with hx | hx
    · exact ha x hx
    · have hxr : x = r := by simpa using hx
      subst hxr
      exact ⟨le_of_lt hr, fun _ => hr⟩
  · intro x hx hx0
    rcases List.mem_append.1 hx with hx | hx
    · exact hb x hx hx0
    · have hxr : x = r := by simpa using hx
      subst hxr
      omega
  · intro x hx hinv
    rcases List.mem_append.1 hx with hx | hx
    · rcases List.mem_append.1 hinv with hi | hi
      · exact hc x hx hi
      · exfalso
        have hir : _invert x = r := by simpa using hi
        have h1 := (ha x hx).1
        have h2 := sum_invert x
        rw [hir] at h2
        omega
    · have hxr : x = r := by simpa using hx
      subst hxr
      rcases List.mem_append.1 hinv with hi | hi
      · exfalso
        have h1 := (ha _ hi).1
        have h2 := sum_invert x
        omega
      · simpa using hi

theorem rulesInv_snoc_zero {strict : Bool} {seen out : List (List Int)} {r : List Int}
    (h : RulesInv strict seen out) (hr : r.sum = 0) (hstrict : strict = false)
    (hnot : r ∉ seen) :
    RulesInv strict (_invert r :: seen) (out ++ [r]) := by
  obtain ⟨ha, hb, hc⟩ := h
  refine ⟨?_, ?_, ?_⟩
  · intro x hx
    rcases List.mem_append.1 hx with hx | hx
    · exact ha x hx
    · have hxr : x = r := by simpa using hx
      subst hxr
      refine ⟨by omega, ?_⟩
      intro hs
      rw [hstrict] at hs
      cases hs
  · intro x hx hx0
    rcases List.mem_append.1 hx with hx | hx
    · exact List.mem_cons_of_mem _ (hb x hx hx0)
    · have hxr : x = r := by simpa using hx
      subst hxr
      exact List.mem_cons_self _ _
  · intro x hx hinv
    rcases List.mem_append.1 hx with hx | hx
    · rcases List.mem_append.1 hinv with hi | hi
      · exact hc x hx hi
      · exfalso
        have hir : _invert x = r := by simpa using hi
        have hx0 : x.sum = 0 := by
          have h2 := sum_invert x
          rw [hir] at h2
          omega
        have := hb x hx hx0
        rw [hir] at this
        exact hnot this
    · have hxr : x = r := by simpa using hx
      subst hxr
      rcases List.mem_append.1 hinv with hi | hi
      · exfalso
        have hi0 : (_invert x).sum = 0 := by
          have h2 := sum_invert x
          omega
        have := hb _ hi hi0
        rw [invert_invert] at this
        exact hnot this
      · simpa using hi

theorem processTuples_cons (strict : Bool) (t : List Int) (ts seen : List (List Int)) :
    processTuples strict (t :: ts) seen =
      match reducingTuple strict seen t with
      | (some r, seen') =>
          ((r :: (processTuples strict ts seen').1), (processTuples strict ts seen').2)
      | (none, seen') => processTuples strict ts seen' := rfl

theorem processTuples_inv (strict : Bool) :
    ∀ (cand : List (List Int)) (seen out : List (List Int)), RulesInv strict seen out →
      RulesInv strict (processTuples strict cand seen).2
        (out ++ (processTuples strict cand seen).1) := by
  intro cand
  induction cand with
  | nil =>
      intro seen out h
      simpa [processTuples] using h
  | cons t ts ih =>
      intro seen out h
      rw [processTuples_cons]
      by_cases h1 : t.sum < 0
      · have hred : reducingTuple strict seen t = (some t, seen) := by
          unfold reducingTuple
          rw [if_pos h1]
        rw [hred]
        have hstep := rulesInv_snoc_neg h h1
        have := ih seen (out ++ [t]) hstep
        simpa [List.append_assoc] using this
      · by_cases h2 : 0 < t.sum
        · have hred : reducingTuple strict seen t = (some (_invert t), seen) := by
            unfold reducingTuple
            rw [if_neg h1, if_pos h2]
          rw [hred]
          have hneg : (_invert t).sum < 0 := by
            have := sum_invert t
            omega
          have hstep := rulesInv_snoc_neg h hneg
          have := ih seen (out ++ [_invert t]) hstep
          simpa [List.append_assoc] using this
        · have h0 : t.sum = 0 := by omega
          rcases Bool.eq_false_or_eq_true strict with hstrict | hstrict
          · have hred : reducingTuple strict seen t = (none, seen) := by
              unfold reducingTuple
              rw [if_neg h1, if_neg h2, hstrict]
              simp
            rw [hred]
            exact ih seen out h
          · by_cases hmem : t ∈ seen
            · have hred : reducingTuple strict seen t = (none, seen) := by
                unfold reducingTuple
                rw [if_neg h1, if_neg h2, hstrict]
                simp [hmem]
              rw [hred]
              exact ih seen out h
            · have hred : reducingTuple strict seen t = (some t, _invert t :: seen) := by
                unfold reducingTuple
                rw [if_neg h1, if_neg h2, hstrict]
                simp [hmem]
              rw [hred]
              have hstep := rulesInv_snoc_zero h h0 hstrict hmem
              have hre := ih (_invert t :: seen) (out ++ [t]) hstep
              simpa [List.append_assoc] using hre

end GroupActions

namespace GroupActions

theorem getRewritesGo_inv (strict : Bool) (m period : Nat) :
    ∀ (ns : List Nat) (seen out : List (List Int)), RulesInv strict seen out →
      ∃ seen', RulesInv strict seen'
        (out ++ getRewritesGo strict m period ns seen) := by
  intro ns
  induction ns with
  | nil =>
      intro seen out h
      exact ⟨seen, by simpa [getRewritesGo] using h⟩
  | cons n ns ih =>
      intro seen out h
      have hstep := processTuples_inv strict
        (productTuples [-(n : Int), (period : Int) - n] m) seen out h
      have hdedup : RulesInv strict
          (processTuples strict (productTuples [-(n : Int), (period : Int) - n] m) seen).2
          (out ++ (processTuples strict (productTuples [-(n : Int), (period : Int) - n] m) seen).1.dedup) := by
        refine rulesInv_mono_out ?_ hstep
        intro r hr
        rcases List.mem_append.1 hr with hr | hr
        · exact List.mem_append.2 (Or.inl hr)
        · exact List.mem_append.2 (Or.inr (List.mem_dedup.1 hr))
      have hrec := ih _ _ hdedup
      obtain ⟨seen', hs⟩ := hrec
      refine ⟨seen', ?_⟩
      have hassoc :
          out ++ getRewritesGo strict m period (n :: ns) seen
            = (out ++ (processTuples strict (productTuples [-(n : Int), (period : Int) - n] m) seen).1.dedup)
              ++ getRewritesGo strict m period ns
                (processTuples strict (productTuples [-(n : Int), (period : Int) - n] m) seen).2 := by
        rw [List.append_assoc]
        rfl
      rw [hassoc]
      exact hs

theorem getRewrites_inv (chars : List Char) (period : Nat) (strict : Bool) :
    ∃ seen', RulesInv strict seen' (getRewrites chars period strict) := by
  have h0 : RulesInv strict [] [] := by
    refine ⟨?_, ?_, ?_⟩ <;> intro r hr <;> simp at hr
  have := getRewritesGo_inv strict chars.length period (nvals period) [] [] h0
  simpa [getRewrites] using this

/-- Every generated rewrite has weight at most zero. -/
theorem getRewrites_sum_le (chars : List Char) (period : Nat) (strict : Bool) :
    ∀ r ∈ getRewrites chars period strict, r.sum ≤ 0 := by
  obtain ⟨seen', h⟩ := getRewrites_inv chars period strict
  exact fun r hr => (h.1 r hr).1

/-- With strictly_weight_reducing, every generated rewrite has weight
strictly below zero. -/
theorem getRewrites_sum_neg (chars : List Char) (period : Nat) :
    ∀ r ∈ getRewrites chars period true, r.sum < 0 := by
  obtain ⟨seen', h⟩ := getRewrites_inv chars period true
  exact fun r hr => (h.1 r hr).2 rfl

/-- The generated rule list never holds a vector together with its
negation (except for a vector equal to its own negation, which needs the
empty alphabet). -/
theorem getRewrites_no_pair (chars : List Char) (period : Nat) (strict : Bool) :
    ∀ r ∈ getRewrites chars period strict,
      _invert r ∈ getRewrites chars period strict → _invert r = r := by
  obtain ⟨seen', h⟩ := getRewrites_inv chars period strict
  exact h.2.2

theorem productTuples_length (choices : List Int) :
    ∀ (m : Nat), ∀ t ∈ productTuples choices m, t.length = m := by
  intro m
  induction m with
  | zero =>
      intro t ht
      simp [productTuples] at ht
      rw [ht]
      rfl
  | succ m ih =>
      intro t ht
      simp only [productTuples, List.mem_flatMap, List.mem_map] at ht
      obtain ⟨a, _, t', ht', rfl⟩ := ht
      simp [ih t' ht']

theorem reducingTuple_some_cases (strict : Bool) (seen : List (List Int))
    (t v : List Int) (seen' : List (List Int))
    (h : reducingTuple strict seen t = (some v, seen')) : v = t ∨ v = _invert t := by
  unfold reducingTuple at h
  split_ifs at h <;> simp at h <;>
    first
      | exact Or.inl h.1.symm
      | exact Or.inl h.1
      | exact Or.inr h.1.symm
      | exact Or.inr h.1

theorem processTuples_length (strict : Bool) (m : Nat) :
    ∀ (cand : List (List Int)) (seen : List (List Int)),
      (∀ t ∈ cand, t.length = m) →
      ∀ r ∈ (processTuples strict cand seen).1, r.length = m := by
  intro cand
  induction cand with
  | nil =>
      intro seen _ r hr
      simp [processTuples] at hr
  | cons t ts ih =>
      intro seen hcand r hr
      rw [processTuples_cons] at hr
      have ht := hcand t (List.mem_cons_self _ _)
      have hts : ∀ x ∈ ts, x.length = m := fun x hx => hcand x (List.mem_cons_of_mem _ hx)
      rcases hred : reducingTuple strict seen t with ⟨o, seen'⟩
      rw [hred] at hr
      cases o with
      | none => exact ih seen' hts r hr
      | some v =>
          rcases List.mem_cons.1 hr with hrv | hrv
          · rcases reducingTuple_some_cases strict seen t v seen' hred with h3 | h3
            · rw [hrv, h3]
              exact ht
            · rw [hrv, h3, invert_length]
              exact ht
          · exact ih seen' hts r hrv

theorem getRewritesGo_length (strict : Bool) (m period : Nat) :
    ∀ (ns : List Nat) (seen : List (List Int)),
      ∀ r ∈ getRewritesGo strict m period ns seen, r.length = m := by
  intro ns
  induction ns with
  | nil =>
      intro seen r hr
      simp [getRewritesGo] at hr
  | cons n ns ih =>
      intro seen r hr
      unfold getRewritesGo at hr
      rcases List.mem_append.1 hr with hr | hr
      · exact processTuples_length strict m _ seen
          (productTuples_length _ m) r (List.mem_dedup.1 hr)
      · exact ih _ r hr

/-- Every generated rewrite vector has the length of the alphabet. -/
theorem getRewrites_length (chars : List Char) (period : Nat) (strict : Bool) :
    ∀ r ∈ getRewrites chars period strict, r.length = chars.length :=
  getRewritesGo_length strict chars.length period (nvals period) []

end GroupActions

/-- C4: every rewrite vector returned by getRewrites has weight at most
zero; with strictly_weight_reducing = True every returned vector has weight
strictly below zero; and the returned rule set never holds a vector t
together with its negation (a degenerate t equal to its own negation needs
the empty alphabet, where the two are one vector). -/
theorem C4_rewrite_weights (chars : List Char) (period : Nat) (strict : Bool) :
    (∀ r ∈ GroupActions.getRewrites chars period strict, r.sum ≤ 0) ∧
    (strict = true → ∀ r ∈ GroupActions.getRewrites chars period strict, r.sum < 0) ∧
    (∀ r ∈ GroupActions.getRewrites chars period strict,
      GroupActions._invert r ∈ GroupActions.getRewrites chars period strict →
        GroupActions._invert r = r) :=
  ⟨GroupActions.getRewrites_sum_le chars period strict,
   fun hstrict => hstrict ▸ GroupActions.getRewrites_sum_neg chars period,
   GroupActions.getRewrites_no_pair chars period strict⟩

/-- Witness for C4: one concrete generated rule of the standard alphabet and
period has strictly negative weight. -/
theorem C4_rewrite_weights_witness :
    ([-2, -2, -2] : List Int) ∈ GroupActions.getRewrites ['a', 'b', 'c'] 8 true ∧
    ([-2, -2, -2] : List Int).sum < 0 :=
  ⟨by decide, (C4_rewrite_weights ['a', 'b', 'c'] 8 true).2.1 rfl [-2, -2, -2] (by decide)⟩

/-! ### The reduction engine: scan semantics, invariants, termination -/

namespace GroupActions

theorem reduceStep_eq_scanOnce (rewrites : List (List Int)) :
    ∀ v, reduceStep rewrites v = scanOnce rewrites v := by
  induction rewrites with
  | nil => intro v; rfl
  | cons r rs ih =>
      intro v
      have h := ih (if applicable v r then addVec v r else v)
      unfold reduceStep at h ⊢
      rw [List.foldl_cons]
      exact h

theorem reduceLoop_eq_scanLoop (rewrites : List (List Int)) :
    ∀ fuel v, reduceLoop rewrites fuel v = scanReduceLoop rewrites fuel v := by
  intro fuel
  induction fuel with
  | zero => intro v; rfl
  | succ f ih =>
      intro v
      unfold reduceLoop scanReduceLoop
      rw [reduceStep_eq_scanOnce]
      by_cases h : scanOnce rewrites v = v
      · rw [if_pos h, if_pos h]
      · rw [if_neg h, if_neg h, ih]

theorem addVec_length (v r : List Int) (h : r.length = v.length) :
    (addVec v r).length = v.length := by
  unfold addVec
  simp [h]

theorem addVec_sum (v : List Int) : ∀ r : List Int, r.length = v.length →
    (addVec v r).sum = v.sum + r.sum := by
  unfold addVec
  induction v with
  | nil =>
      intro r h
      rw [List.length_nil, List.length_eq_zero] at h
      subst h
      simp
  | cons a v ih =>
      intro r h
      cases r with
      | nil => simp at h
      | cons b r =>
          have hr : r.length = v.length := by simpa using h
          simp only [List.zip_cons_cons, List.map_cons, List.sum_cons, ih r hr]
          ring

theorem addVec_nonneg (v r : List Int) (happ : applicable v r = true) :
    ∀ x ∈ addVec v r, 0 ≤ x := by
  unfold applicable at happ
  unfold addVec
  intro x hx
  simp only [List.mem_map] at hx
  obtain ⟨p, hp, rfl⟩ := hx
  rw [List.all_eq_true] at happ
  simpa using happ p hp

theorem scanOnce_pres (L : Nat) : ∀ (rewrites : List (List Int)) (v : List Int),
    (∀ r ∈ rewrites, r.length = L) → v.length = L → (∀ x ∈ v, 0 ≤ x) →
    (scanOnce rewrites v).length = L ∧ (∀ x ∈ scanOnce rewrites v, 0 ≤ x) := by
  intro rewrites
  induction rewrites with
  | nil => exact fun v _ h1 h2 => ⟨h1, h2⟩
  | cons r rs ih =>
      intro v hrl h1 h2
      have hr : r.length = L := hrl r (List.mem_cons_self _ _)
      have hrs : ∀ x ∈ rs, x.length = L := fun x hx => hrl x (List.mem_cons_of_mem _ hx)
      show (scanOnce rs (if applicable v r then addVec v r else v)).length = L ∧
        ∀ x ∈ scanOnce rs (if applicable v r then addVec v r else v), 0 ≤ x
      by_cases happ : applicable v r = true
      · rw [if_pos happ]
        exact ih (addVec v r) hrs (by rw [addVec_length v r (by omega)]; exact h1)
          (addVec_nonneg v r happ)
      · rw [if_neg happ]
        exact ih v hrs h1 h2

theorem scanOnce_sum (L : Nat) : ∀ (rewrites : List (List Int)) (v : List Int),
    (∀ r ∈ rewrites, r.length = L ∧ r.sum < 0) → v.length = L →
    (scanOnce rewrites v = v ∨ (scanOnce rewrites v).sum < v.sum) := by
  intro rewrites
  induction rewrites with
  | nil => exact fun v _ _ => Or.inl rfl
  | cons r rs ih =>
      intro v hrl h1
      have hr := hrl r (List.mem_cons_self _ _)
      have hrs : ∀ x ∈ rs, x.length = L ∧ x.sum < 0 :=
        fun x hx => hrl x (List.mem_cons_of_mem _ hx)
      show scanOnce rs (if applicable v r then addVec v r else v) = v ∨
        (scanOnce rs (if applicable v r then addVec v r else v)).sum < v.sum
      by_cases happ : applicable v r = true
      · rw [if_pos happ]
        right
        have hsum : (addVec v r).sum = v.sum + r.sum := addVec_sum v r (by omega)
        have hlt : (addVec v r).sum < v.sum := by omega
        have hlen : (addVec v r).length = L := by rw [addVec_length v r (by omega)]; exact h1
        rcases ih (addVec v r) hrs hlen with h | h
        · rw [h]; exact hlt
        · omega
      · rw [if_neg happ]
        exact ih v hrs h1

theorem scanLoop_total (L : Nat) (rewrites : List (List Int))
    (hr : ∀ r ∈ rewrites, r.length = L ∧ r.sum < 0) :
    ∀ (fuel : Nat) (v : List Int), v.length = L → (∀ x ∈ v, 0 ≤ x) →
      v.sum.toNat < fuel → ∃ v', scanReduceLoop rewrites fuel v = some v' := by
  intro fuel
  induction fuel with
  | zero => intro v _ _ h; omega
  | succ f ih =>
      intro v hL hnn hfuel
      unfold scanReduceLoop
      by_cases heq : scanOnce rewrites v = v
      · exact ⟨v, by rw [if_pos heq]⟩
      · rw [if_neg heq]
        have hpres := scanOnce_pres L rewrites v (fun r hr' => (hr r hr').1) hL hnn
        rcases scanOnce_sum L rewrites v hr hL with h | h
        · exact absurd h heq
        · have h0 : 0 ≤ (scanOnce rewrites v).sum := List.sum_nonneg hpres.2
          have h1 : 0 ≤ v.sum := List.sum_nonneg hnn
          exact ih (scanOnce rewrites v) hpres.1 hpres.2 (by omega)

theorem reduceLoop_props (rewrites : List (List Int)) (P : List Int → Prop)
    (hP : ∀ v, P v → P (reduceStep rewrites v)) :
    ∀ (fuel : Nat) (v v' : List Int), P v → reduceLoop rewrites fuel v = some v' →
      P v' ∧ reduceStep rewrites v' = v' := by
  intro fuel
  induction fuel with
  | zero => intro v v' _ h; simp [reduceLoop] at h
  | succ f ih =>
      intro v v' hv h
      unfold reduceLoop at h
      by_cases heq : reduceStep rewrites v = v
      · rw [if_pos heq] at h
        obtain rfl := Option.some.inj h
        exact ⟨hv, heq⟩
      · rw [if_neg heq] at h
        exact ih _ _ (hP v hv) h

end GroupActions

/-! ### Claim C3: the scan strategy of reduce -/

/-- C3 counterexample: the word aabb with the rule list [a-1 b-1, a-1 b+1]
separates the two strategies: the source applies both rules inside one scan
and returns bb, while the first-applicable-rule-then-restart strategy of
the specification applies the first rule twice and returns the empty word. -/
theorem C3_restart_counterexample :
    GroupActions.reduce 9 "aabb".data [[-1, -1], [-1, 1]] ['a', 'b'] = some (some "bb") ∧
    GroupActions.specRestartReduce 9 "aabb".data [[-1, -1], [-1, 1]] ['a', 'b']
      = some (some "") ∧
    GroupActions.reduce 9 "aabb".data [[-1, -1], [-1, 1]] ['a', 'b'] ≠
      GroupActions.specRestartReduce 9 "aabb".data [[-1, -1], [-1, 1]] ['a', 'b'] := by
  refine ⟨by decide, by decide, by decide⟩

/-- C3 amended: for every word and rule list, reduce computes its result by
repeated scans of the whole rule list in order; within one scan every rule
found applicable to the current vector is applied at once and the scan
continues from the next rule with the updated vector; the reduction stops
when one whole scan leaves the vector unchanged. -/
theorem C3_reduce_scans_whole_list (fuel : Nat) (action : List Char)
    (rewrites : List (List Int)) (chars : List Char) :
    GroupActions.reduce fuel action rewrites chars
      = GroupActions.scanReduce fuel action rewrites chars := by
  unfold GroupActions.reduce GroupActions.scanReduce
  simp only [GroupActions.reduceLoop_eq_scanLoop]

/-! ### Claim C5: a^period reduces to the empty word -/

/-- C5: with the strictly weight-reducing rules generated for the alphabet
a, b, c and period 8, the word of eight letters a reduces to the empty
canonical word. -/
theorem C5_a8_reduces_to_identity :
    GroupActions.reduce 9 "aaaaaaaa".data
      (GroupActions.getRewrites ['a', 'b', 'c'] 8 true) ['a', 'b', 'c']
      = some (some "") := by
  decide

/-! ### Claim C7: validation and the non-terminating loop -/

namespace GroupActions

/-- The two-state cycle of the rule list [a-2 b+2, a+1 b-1]: from a^2 one
scan yields ab then a^2 again, so no scan count reaches a fixpoint. -/
theorem cycleRules_loop_none :
    ∀ fuel, reduceLoop [[-2, 2], [1, -1]] fuel [2, 0] = none ∧
      reduceLoop [[-2, 2], [1, -1]] fuel [1, 1] = none := by
  intro fuel
  induction fuel with
  | zero => exact ⟨rfl, rfl⟩
  | succ f ih =>
      have h1 : reduceStep [[-2, 2], [1, -1]] [2, 0] = [1, 1] := by decide
      have h2 : reduceStep [[-2, 2], [1, -1]] [1, 1] = [2, 0] := by decide
      constructor
      · unfold reduceLoop
        rw [h1, if_neg (by decide)]
        exact ih.2
      · unfold reduceLoop
        rw [h2, if_neg (by decide)]
        exact ih.1

end GroupActions

/-- C7 counterexample: the word aa lies inside the alphabet a, b, yet with
the rule list [a-2 b+2, a+1 b-1] reduce never returns: the rewrite loop
cycles between a^2 and ab forever (every fuel bound is exhausted), so the
call neither fails with InvalidInput nor returns a canonical string. -/
theorem C7_nontermination_counterexample :
    (∀ c ∈ "aa".data, c ∈ (['a', 'b'] : List Char)) ∧
    GroupActions.reduceDiverges "aa".data [[-2, 2], [1, -1]] ['a', 'b'] := by
  constructor
  · decide
  · intro fuel
    show GroupActions.reduce fuel "aa".data [[-2, 2], [1, -1]] ['a', 'b'] = some none
    unfold GroupActions.reduce
    rw [if_pos (by decide)]
    have hv : GroupActions.toVector (['a', 'b'].map Char.toLower)
        ("aa".data.map Char.toLower) = [2, 0] := by decide
    rw [hv, (GroupActions.cycleRules_loop_none fuel).1]
    rfl

/-- C7 amended: reduce fails with the InvalidInput error exactly when the
word holds a letter outside the configured alphabet (case-insensitively,
as the source lower-cases both); a word inside the alphabet never raises
InvalidInput, though the rewrite loop itself need not terminate. -/
theorem C7_invalid_input_iff (fuel : Nat) (action : List Char)
    (rewrites : List (List Int)) (chars : List Char) :
    GroupActions.reduce fuel action rewrites chars = none ↔
      ∃ c ∈ action, c.toLower ∉ chars.map Char.toLower := by
  unfold GroupActions.reduce
  by_cases hval : (action.map Char.toLower).all
      (fun c => decide (c ∈ chars.map Char.toLower)) = true
  · rw [if_pos hval]
    rw [List.all_eq_true] at hval
    constructor
    · intro h
      cases h
    · rintro ⟨c, hc, hnot⟩
      exact absurd (by simpa using hval c.toLower (List.mem_map_of_mem _ hc)) hnot
  · rw [if_neg hval]
    rw [List.all_eq_true] at hval
    push_neg at hval
    obtain ⟨x, hx, hnot⟩ := hval
    rw [List.mem_map] at hx
    obtain ⟨c, hc, rfl⟩ := hx
    refine iff_of_true rfl ⟨c, hc, ?_⟩
    simpa using hnot

/-- Witness for C7 amended at a concrete invalid input: z is not in the
alphabet a, b, so reduce fails with InvalidInput. -/
theorem C7_invalid_input_iff_witness :
    GroupActions.reduce 5 "az".data [] ['a', 'b'] = none :=
  (C7_invalid_input_iff 5 "az".data [] ['a', 'b']).mpr (by decide)

/-! ### Claim C6: idempotence of reduction -/

theorem char_toNat_ofNat {n : Nat} (h : n < 55296) : (Char.ofNat n).toNat = n := by
  have hv : n.isValidChar := Or.inl (by exact_mod_cast h)
  unfold Char.ofNat
  rw [dif_pos hv]
  rfl

theorem toLower_toLower (c : Char) : Char.toLower (Char.toLower c) = Char.toLower c := by
  unfold Char.toLower
  by_cases h : c.toNat ≥ 65 ∧ c.toNat ≤ 90
  · rw [if_pos h]
    have hv : (Char.ofNat (c.toNat + 32)).toNat = c.toNat + 32 :=
      char_toNat_ofNat (by omega)
    rw [hv, if_neg (by omega)]
  · rw [if_neg h, if_neg h]

namespace GroupActions

theorem count_insertChar (c d : Char) (l : List Char) :
    (insertChar d l).count c = (d :: l).count c := by
  induction l with
  | nil => rfl
  | cons e l ih =>
      unfold insertChar
      by_cases h : d ≤ e
      · rw [if_pos h]
      · rw [if_neg h]
        simp only [List.count_cons, ih]
        omega

theorem count_sortChars (c : Char) (l : List Char) :
    (sortChars l).count c = l.count c := by
  induction l with
  | nil => rfl
  | cons d l ih =>
      show (insertChar d (sortChars l)).count c = _
      rw [count_insertChar]
      simp only [List.count_cons, ih]

theorem mem_sortChars (c : Char) (l : List Char) : c ∈ sortChars l ↔ c ∈ l := by
  rw [← List.count_pos_iff_mem, ← List.count_pos_iff_mem, count_sortChars]

/-- Members of the element expansion of a counter lie in the alphabet. -/
theorem mem_elements (chars : List Char) (v : List Int) :
    ∀ e ∈ (chars.zip v).flatMap (fun p => List.replicate p.2.toNat p.1), e ∈ chars := by
  intro e he
  simp only [List.mem_flatMap] at he
  obtain ⟨p, hp, he⟩ := he
  rw [List.eq_of_mem_replicate he]
  exact (List.mem_zip hp).1

theorem count_replicate_ne {c d : Char} (h : d ≠ c) (n : Nat) :
    (List.replicate n d).count c = 0 := by
  rw [List.count_eq_zero]
  intro hmem
  exact h ((List.eq_of_mem_replicate hmem).symm)

theorem count_replicate_self (c : Char) (n : Nat) :
    (List.replicate n c).count c = n := by
  induction n with
  | zero => rfl
  | succ n ih => simp [List.replicate_succ, List.count_cons, ih]

/-- Re-counting the element expansion of a nonnegative counter over a
duplicate-free alphabet gives the counter back. -/
theorem toVector_elements : ∀ (chars : List Char) (v : List Int), chars.Nodup →
    v.length = chars.length → (∀ x ∈ v, 0 ≤ x) →
    toVector chars ((chars.zip v).flatMap (fun p => List.replicate p.2.toNat p.1)) = v := by
  intro chars
  induction chars with
  | nil =>
      intro v _ hlen _
      rw [List.length_nil, List.length_eq_zero] at hlen
      subst hlen
      rfl
  | cons c cs ih =>
      intro v hnodup hlen hnn
      cases v with
      | nil => simp at hlen
      | cons x xs =>
          have hcs : xs.length = cs.length := by simpa using hlen
          have hnodup' : cs.Nodup := (List.nodup_cons.1 hnodup).2
          have hcnot : c ∉ cs := (List.nodup_cons.1 hnodup).1
          have hxnn : 0 ≤ x := hnn x (List.mem_cons_self _ _)
          have hxsnn : ∀ y ∈ xs, 0 ≤ y := fun y hy => hnn y (List.mem_cons_of_mem _ hy)
          have hsplit : ((c :: cs).zip (x :: xs)).flatMap
              (fun p => List.replicate p.2.toNat p.1)
              = List.replicate x.toNat c
                ++ (cs.zip xs).flatMap (fun p => List.replicate p.2.toNat p.1) := by
            rfl
          unfold toVector
          rw [List.map_cons, hsplit]
          have hrest : ((cs.zip xs).flatMap
              (fun p => List.replicate p.2.toNat p.1)).count c = 0 := by
            rw [List.count_eq_zero]
            intro hmem
            exact hcnot (mem_elements cs xs c hmem)
          have hhead : (List.replicate x.toNat c
              ++ (cs.zip xs).flatMap (fun p => List.replicate p.2.toNat p.1)).count c
              = x.toNat := by
            rw [List.count_append, hrest, count_replicate_self]
            omega
          rw [hhead]
          have htail : cs.map (fun d => ((List.replicate x.toNat c
              ++ (cs.zip xs).flatMap (fun p => List.replicate p.2.toNat p.1)).count d : Int))
              = cs.map (fun d => (((cs.zip xs).flatMap
                  (fun p => List.replicate p.2.toNat p.1)).count d : Int)) := by
            apply List.map_congr_left
            intro d hd
            have hdc : c ≠ d := fun hcd => hcnot (hcd ▸ hd)
            rw [List.count_append, count_replicate_ne hdc, Nat.zero_add]
          rw [htail]
          have := ih xs hnodup' hcs hxsnn
          unfold toVector at this
          rw [this, Int.toNat_of_nonneg hxnn]

/-- Re-parsing the canonical string of a nonnegative fixpoint vector gives
the vector back. -/
theorem toVector_counterToStr (chars : List Char) (v : List Int)
    (hnodup : chars.Nodup) (hlen : v.length = chars.length)
    (hnn : ∀ x ∈ v, 0 ≤ x) :
    toVector chars (counterToStr chars v).data = v := by
  unfold counterToStr
  show toVector chars (sortChars _) = v
  have hcount : toVector chars
      (sortChars ((chars.zip v).flatMap (fun p => List.replicate p.2.toNat p.1)))
      = toVector chars ((chars.zip v).flatMap (fun p => List.replicate p.2.toNat p.1)) := by
    unfold toVector
    apply List.map_congr_left
    intro d _
    rw [count_sortChars]
  rw [hcount]
  exact toVector_elements chars v hnodup hlen hnn

theorem counterToStr_mem (chars : List Char) (v : List Int) :
    ∀ e ∈ (counterToStr chars v).data, e ∈ chars := by
  intro e he
  unfold counterToStr at he
  rw [show (String.mk (sortChars ((chars.zip v).flatMap
      (fun p => List.replicate p.2.toNat p.1)))).data
      = sortChars ((chars.zip v).flatMap (fun p => List.replicate p.2.toNat p.1)) from rfl,
    mem_sortChars] at he
  exact mem_elements chars v e he

theorem toVector_length (chars s : List Char) : (toVector chars s).length = chars.length := by
  unfold toVector
  simp

theorem toVector_nonneg (chars s : List Char) : ∀ x ∈ toVector chars s, 0 ≤ x := by
  intro x hx
  unfold toVector at hx
  simp only [List.mem_map] at hx
  obtain ⟨c, _, rfl⟩ := hx
  exact Int.ofNat_nonneg _

end GroupActions

/-- C6: reduction is idempotent. Whenever reduce returns a canonical string
for a word over a duplicate-free alphabet (with rewrite vectors of the
alphabet length), reducing that canonical string again returns the very
same string, for any positive scan budget. -/
theorem C6_reduce_idempotent (fuel fuel' : Nat) (w : List Char)
    (rewrites : List (List Int)) (chars : List Char) (s : String)
    (hnodup : (chars.map Char.toLower).Nodup)
    (hlen : ∀ r ∈ rewrites, r.length = chars.length)
    (hfuel : 1 ≤ fuel')
    (hred : GroupActions.reduce fuel w rewrites chars = some (some s)) :
    GroupActions.reduce fuel' s.data rewrites chars = some (some s) := by
  unfold GroupActions.reduce at hred
  by_cases hval : ((w.map Char.toLower).all
      (fun c => decide (c ∈ chars.map Char.toLower))) = true
  case neg => rw [if_neg hval] at hred; cases hred
  rw [if_pos hval] at hred
  have hred' := Option.some.inj hred
  rw [Option.map_eq_some'] at hred'
  obtain ⟨vstar, hloop, hstr⟩ := hred'
  -- invariants of the loop result
  have hP := GroupActions.reduceLoop_props rewrites
    (fun v => v.length = (chars.map Char.toLower).length ∧ ∀ x ∈ v, 0 ≤ x)
    (fun v hv => by
      have hrl : ∀ r ∈ rewrites, r.length = (chars.map Char.toLower).length := by
        intro r hr
        rw [List.length_map]
        exact hlen r hr
      have := GroupActions.scanOnce_pres (chars.map Char.toLower).length rewrites v hrl hv.1 hv.2
      rw [← GroupActions.reduceStep_eq_scanOnce] at this
      exact this)
    fuel _ vstar
    ⟨GroupActions.toVector_length _ _, GroupActions.toVector_nonneg _ _⟩ hloop
  obtain ⟨⟨hvlen, hvnn⟩, hfix⟩ := hP
  -- the canonical string re-parses to the same vector
  have hsdata : s.data = (GroupActions.counterToStr (chars.map Char.toLower) vstar).data := by
    rw [hstr]
  have hmem : ∀ e ∈ s.data, e ∈ chars.map Char.toLower := by
    rw [hsdata]
    exact GroupActions.counterToStr_mem _ _
  have hstable : s.data.map Char.toLower = s.data := by
    have hid : ∀ e ∈ s.data, Char.toLower e = e := by
      intro e he
      obtain ⟨c, _, rfl⟩ := List.mem_map.1 (hmem e he)
      exact toLower_toLower c
    calc s.data.map Char.toLower = s.data.map id := List.map_congr_left hid
    _ = s.data := List.map_id _
  unfold GroupActions.reduce
  rw [if_pos (by
    rw [hstable, List.all_eq_true]
    intro x hx
    exact decide_eq_true (hmem x hx))]
  rw [hstable]
  have hvec : GroupActions.toVector (chars.map Char.toLower) s.data = vstar := by
    rw [hsdata]
    exact GroupActions.toVector_counterToStr _ _ hnodup (by rw [hvlen]) hvnn
  rw [hvec]
  obtain ⟨f', rfl⟩ : ∃ f', fuel' = f' + 1 := ⟨fuel' - 1, by omega⟩
  unfold GroupActions.reduceLoop
  rw [hfix, if_pos rfl]
  rw [Option.map_some']
  rw [hstr]

/-- Witness for C6 at a concrete reduction: ba reduces to b with the single
rule a-1 b+0, and reducing b again returns b. -/
theorem C6_reduce_idempotent_witness :
    ((['a', 'b'].map Char.toLower).Nodup ∧
     (∀ r ∈ [([-1, 0] : List Int)], r.length = (['a', 'b'] : List Char).length) ∧
     1 ≤ 1 ∧
     GroupActions.reduce 3 "ba".data [[-1, 0]] ['a', 'b'] = some (some "b")) ∧
    GroupActions.reduce 1 "b".data [[-1, 0]] ['a', 'b'] = some (some "b") :=
  ⟨⟨by decide, by decide, by decide, by decide⟩,
   C6_reduce_idempotent 3 1 "ba".data [[-1, 0]] ['a', 'b'] "b"
     (by decide) (by decide) (by decide) (by decide)⟩

/-! ### The fall of one ball: bounds, termination, frame, injectivity -/

theorem initialGrid_length (rows cols : Nat) : (initialGrid rows cols).length = rows := by
  unfold initialGrid
  simp

theorem initialGrid_getD (rows cols i : Nat) (h : i < rows) :
    (initialGrid rows cols).getD i [] = List.replicate (cols - i % 2) LEFT := by
  unfold initialGrid
  have hlen : i < ((List.range rows).map
      (fun i => List.replicate (cols - i % 2) LEFT)).length := by simpa using h
  rw [List.getD_eq_getElem _ _ hlen, List.getElem_map, List.getElem_range]

theorem shape_bounds {rows cols : Nat} {g : Grid}
    (hs : gridShape g = gridShape (initialGrid rows cols))
    {row col : Nat} (hrow : row < rows) (hcol : col < cols - row % 2) :
    row < g.length ∧ col < (g.getD row []).length := by
  constructor
  · rw [gridShape_length hs, initialGrid_length]
    exact hrow
  · rw [gridShape_row hs row, initialGrid_getD rows cols row hrow, List.length_replicate]
    exact hcol

theorem nextPos_some_row {g : Grid} {rows cols row col : Nat} {p' : Nat × Nat}
    (h : nextPos g rows cols row col = some p') : row < p'.1 := by
  unfold nextPos at h
  split_ifs at h <;> cases h <;> omega

theorem nextPos_congr {g1 g2 : Grid} (rows cols row col : Nat)
    (h : gridGet g1 row col = gridGet g2 row col) :
    nextPos g1 rows cols row col = nextPos g2 rows cols row col := by
  unfold nextPos
  rw [h]

theorem nextPos_isSome (g : Grid) {rows row : Nat} (cols col : Nat)
    (h : ¬ row = rows - 1) : ∃ p', nextPos g rows cols row col = some p' := by
  unfold nextPos
  rw [if_neg h]
  split_ifs <;> exact ⟨_, rfl⟩

theorem nextPos_bounds {hh : Nat} {g : Grid} {cols row col : Nat} {p' : Nat × Nat}
    (hcols : 2 ≤ cols) (hrow : row < 2 * hh + 1) (hcol : col < cols - row % 2)
    (h : nextPos g (2 * hh + 1) cols row col = some p') :
    p'.1 < 2 * hh + 1 ∧ p'.2 < cols - p'.1 % 2 := by
  unfold nextPos at h
  split_ifs at h <;> cases h <;> constructor <;> omega

theorem fall_shape (rows cols : Nat) : ∀ (fuel : Nat) (g : Grid) (p : Nat × Nat)
    (g' : Grid) (path : List (Nat × Nat)),
    fall rows cols fuel g p = some (g', path) → gridShape g' = gridShape g := by
  intro fuel
  induction fuel with
  | zero =>
      intro g p g' path h
      cases h
  | succ f ih =>
      intro g p g' path h
      unfold fall at h
      rcases hn : nextPos g rows cols p.1 p.2 with _ | p'
      · rw [hn] at h
        have h1 : flipGrid g p.1 p.2 = g' := congrArg Prod.fst (Option.some.inj h)
        rw [← h1, flipGrid_shape]
      · rw [hn, Option.map_eq_some'] at h
        obtain ⟨r, hr, hre⟩ := h
        obtain ⟨rg, rpath⟩ := r
        have h1 : rg = g' := congrArg Prod.fst hre
        have h2 := ih (flipGrid g p.1 p.2) p' rg rpath hr
        rw [← h1, h2, flipGrid_shape]

theorem fall_frame (rows cols : Nat) : ∀ (fuel : Nat) (g : Grid) (p : Nat × Nat)
    (g' : Grid) (path : List (Nat × Nat)),
    fall rows cols fuel g p = some (g', path) →
    ∀ i j, i < p.1 → gridGet g' i j = gridGet g i j := by
  intro fuel
  induction fuel with
  | zero =>
      intro g p g' path h
      cases h
  | succ f ih =>
      intro g p g' path h i j hi
      unfold fall at h
      rcases hn : nextPos g rows cols p.1 p.2 with _ | p'
      · rw [hn] at h
        have h1 : flipGrid g p.1 p.2 = g' := congrArg Prod.fst (Option.some.inj h)
        rw [← h1, gridGet_flipGrid_ne g p.1 p.2 i j (Or.inl (by omega))]
      · rw [hn, Option.map_eq_some'] at h
        obtain ⟨r, hr, hre⟩ := h
        obtain ⟨rg, rpath⟩ := r
        have h1 : rg = g' := congrArg Prod.fst hre
        have hrow := nextPos_some_row hn
        have h2 := ih (flipGrid g p.1 p.2) p' rg rpath hr i j (by omega)
        rw [← h1, h2, gridGet_flipGrid_ne g p.1 p.2 i j (Or.inl (by omega))]

theorem fall_total (hh cols : Nat) (hcols : 2 ≤ cols) :
    ∀ (fuel : Nat) (g : Grid) (p : Nat × Nat),
      p.1 < 2 * hh + 1 → p.2 < cols - p.1 % 2 → 2 * hh + 1 - p.1 ≤ fuel →
      ∃ g' path, fall (2 * hh + 1) cols fuel g p = some (g', path) ∧
        path.head? = some p ∧
        (∀ q ∈ path, q.1 < 2 * hh + 1 ∧ q.2 < cols - q.1 % 2) ∧
        List.Chain' (fun a b => a.1 < b.1) path := by
  intro fuel
  induction fuel with
  | zero =>
      intro g p h1 _ h3
      omega
  | succ f ih =>
      intro g p h1 h2 h3
      rcases hn : nextPos g (2 * hh + 1) cols p.1 p.2 with _ | p'
      · refine ⟨flipGrid g p.1 p.2, [p], ?_, rfl, ?_, ?_⟩
        · unfold fall
          rw [hn]
        · intro q hq
          rw [List.mem_singleton] at hq
          subst hq
          exact ⟨h1, h2⟩
        · simp
      · obtain ⟨hb1, hb2⟩ := nextPos_bounds hcols h1 h2 hn
        have hrow := nextPos_some_row hn
        obtain ⟨g'', path', hf, hhead, hbounds, hchain⟩ :=
          ih (flipGrid g p.1 p.2) p' hb1 hb2 (by omega)
        refine ⟨g'', p :: path', ?_, rfl, ?_, ?_⟩
        · unfold fall
          rw [hn]
          show Option.map (fun r => (r.1, p :: r.2))
            (fall (2 * hh + 1) cols f (flipGrid g p.1 p.2) p') = some (g'', p :: path')
          rw [hf]
          rfl
        · intro q hq
          rcases List.mem_cons.1 hq with rfl | hq
          · exact ⟨h1, h2⟩
          · exact hbounds q hq
        · cases path' with
          | nil => simp at hhead
          | cons q rest =>
              have hq : q = p' := by simpa using hhead
              subst hq
              exact List.chain'_cons.2 ⟨hrow, hchain⟩

theorem fall_inj (hh cols : Nat) (hcols : 2 ≤ cols) :
    ∀ (fuel : Nat) (g1 g2 : Grid) (p : Nat × Nat) (g' : Grid)
      (path1 path2 : List (Nat × Nat)),
      gridShape g1 = gridShape (initialGrid (2 * hh + 1) cols) →
      gridShape g2 = gridShape (initialGrid (2 * hh + 1) cols) →
      p.1 < 2 * hh + 1 → p.2 < cols - p.1 % 2 →
      fall (2 * hh + 1) cols fuel g1 p = some (g', path1) →
      fall (2 * hh + 1) cols fuel g2 p = some (g', path2) →
      g1 = g2 := by
  intro fuel
  induction fuel with
  | zero =>
      intro g1 g2 p g' path1 path2 _ _ _ _ h _
      cases h
  | succ f ih =>
      intro g1 g2 p g' path1 path2 hs1 hs2 hp1 hp2 hf1 hf2
      obtain ⟨hb1r, hb1c⟩ := shape_bounds hs1 hp1 hp2
      obtain ⟨hb2r, hb2c⟩ := shape_bounds hs2 hp1 hp2
      by_cases hlast : p.1 = 2 * hh + 1 - 1
      · have hn1 : nextPos g1 (2 * hh + 1) cols p.1 p.2 = none := by
          unfold nextPos
          rw [if_pos hlast]
        have hn2 : nextPos g2 (2 * hh + 1) cols p.1 p.2 = none := by
          unfold nextPos
          rw [if_pos hlast]
        unfold fall at hf1 hf2
        rw [hn1] at hf1
        rw [hn2] at hf2
        have hg1 : flipGrid g1 p.1 p.2 = g' := congrArg Prod.fst (Option.some.inj hf1)
        have hg2 : flipGrid g2 p.1 p.2 = g' := congrArg Prod.fst (Option.some.inj hf2)
        have hflip : flipGrid g1 p.1 p.2 = flipGrid g2 p.1 p.2 := by rw [hg1, hg2]
        calc g1 = flipGrid (flipGrid g1 p.1 p.2) p.1 p.2 := (flipGrid_flipGrid g1 p.1 p.2).symm
          _ = flipGrid (flipGrid g2 p.1 p.2) p.1 p.2 := by rw [hflip]
          _ = g2 := flipGrid_flipGrid g2 p.1 p.2
      · obtain ⟨p1', hn1⟩ := nextPos_isSome g1 cols p.2 hlast
        obtain ⟨p2', hn2⟩ := nextPos_isSome g2 cols p.2 hlast
        unfold fall at hf1 hf2
        rw [hn1, Option.map_eq_some'] at hf1
        rw [hn2, Option.map_eq_some'] at hf2
        obtain ⟨r1, hr1, hre1⟩ := hf1
        obtain ⟨r2, hr2, hre2⟩ := hf2
        obtain ⟨r1g, r1path⟩ := r1
        obtain ⟨r2g, r2path⟩ := r2
        have hg1 : r1g = g' := congrArg Prod.fst hre1
        have hg2 : r2g = g' := congrArg Prod.fst hre2
        rw [hg1] at hr1
        rw [hg2] at hr2
        by_cases hb : gridGet g1 p.1 p.2 = gridGet g2 p.1 p.2
        · have hpp : p1' = p2' := by
            have hc := nextPos_congr (2 * hh + 1) cols p.1 p.2 hb
            rw [hn1, hn2] at hc
            exact Option.some.inj hc
          subst hpp
          obtain ⟨hc1, hc2⟩ := nextPos_bounds hcols hp1 hp2 hn1
          have hflip : flipGrid g1 p.1 p.2 = flipGrid g2 p.1 p.2 :=
            ih (flipGrid g1 p.1 p.2) (flipGrid g2 p.1 p.2) p1' g' r1path r2path
              (by rw [flipGrid_shape]; exact hs1) (by rw [flipGrid_shape]; exact hs2)
              hc1 hc2 hr1 hr2
          calc g1 = flipGrid (flipGrid g1 p.1 p.2) p.1 p.2 := (flipGrid_flipGrid g1 p.1 p.2).symm
            _ = flipGrid (flipGrid g2 p.1 p.2) p.1 p.2 := by rw [hflip]
            _ = g2 := flipGrid_flipGrid g2 p.1 p.2
        · exfalso
          have hrow1 := nextPos_some_row hn1
          have hrow2 := nextPos_some_row hn2
          have hv1 : gridGet g' p.1 p.2 = !(gridGet g1 p.1 p.2) := by
            have hfr := fall_frame (2 * hh + 1) cols f (flipGrid g1 p.1 p.2) p1' g' r1path
              hr1 p.1 p.2 hrow1
            rw [hfr, gridGet_flipGrid_self g1 p.1 p.2 hb1r hb1c]
          have hv2 : gridGet g' p.1 p.2 = !(gridGet g2 p.1 p.2) := by
            have hfr := fall_frame (2 * hh + 1) cols f (flipGrid g2 p.1 p.2) p2' g' r2path
              hr2 p.1 p.2 hrow2
            rw [hfr, gridGet_flipGrid_self g2 p.1 p.2 hb2r hb2c]
          rw [hv1] at hv2
          exact hb (by simpa using hv2)

/-! ### From the Trellis object to the grid-level fall -/

theorem fall_succ (rows cols fuel : Nat) (g : Grid) (p : Nat × Nat) :
    fall rows cols (fuel + 1) g p
      = match nextPos g rows cols p.1 p.2 with
        | none => some (flipGrid g p.1 p.2, [p])
        | some p' =>
            (fall rows cols fuel (flipGrid g p.1 p.2) p').map (fun r => (r.1, p :: r.2)) := rfl

theorem dropLoop_none (fuel : Nat) (t : Trellis) (h : t.ball_position = none) :
    Trellis.dropLoop (fuel + 1) t = some { t with ball_path := [] } := by
  unfold Trellis.dropLoop Trellis.update
  rw [h]

theorem dropLoop_some (fuel : Nat) (t : Trellis) (row col : Nat)
    (h : t.ball_position = some (row, col)) :
    Trellis.dropLoop (fuel + 1) t = Trellis.dropLoop fuel
      { t with ball_path := t.ball_path ++ [(row, col)],
               ball_position := nextPos t.trellis t.rows t.cols row col,
               trellis := flipGrid t.trellis row col } := by
  conv_lhs => rw [Trellis.dropLoop]
  unfold Trellis.update
  rw [h]

theorem dropLoop_eq_fall : ∀ (fuel : Nat) (t : Trellis) (p : Nat × Nat),
    t.ball_position = some p →
    Trellis.dropLoop (fuel + 1) t
      = (fall t.rows t.cols fuel t.trellis p).map
        (fun r => { t with trellis := r.1, ball_position := none, ball_path := [] }) := by
  intro fuel
  induction fuel with
  | zero =>
      intro t p hball
      obtain ⟨row, col⟩ := p
      rw [dropLoop_some 0 t row col hball]
      rfl
  | succ f ih =>
      intro t p hball
      obtain ⟨row, col⟩ := p
      rw [dropLoop_some (f + 1) t row col hball]
      rcases hn : nextPos t.trellis t.rows t.cols row col with _ | p'
      · rw [dropLoop_none f _ rfl]
        conv_rhs => rw [fall_succ]
        rw [hn]
        rfl
      · rw [ih _ p' rfl]
        conv_rhs => rw [fall_succ]
        rw [hn]
        rw [Option.map_map]
        rfl

theorem drop_ball_eq (t : Trellis) (c : Char) (hball : t.ball_position = none)
    (hvalid : t.is_valid_action c = true) :
    t.drop_ball c
      = (fall t.rows t.cols (t.rows + 1) t.trellis (0, t.char_to_int c)).map
        (fun r => { t with trellis := r.1, ball_position := none, ball_path := [] }) := by
  unfold Trellis.drop_ball
  rw [if_neg (by rw [hball]; simp), if_neg (by rw [hvalid]; simp)]
  exact dropLoop_eq_fall (t.rows + 1) _ (0, t.char_to_int c) rfl

/-! ### The alphabet of a constructible trellis -/

theorem atomic_member_fixed {cols : Nat} (h26 : cols ≤ 26) :
    ∀ x ∈ (List.range cols).map (fun i => Char.ofNat (97 + i)), Char.toLower x = x := by
  intro x hx
  rw [List.mem_map] at hx
  obtain ⟨i, hi, rfl⟩ := hx
  rw [List.mem_range] at hi
  have htn : (Char.ofNat (97 + i)).toNat = 97 + i := char_toNat_ofNat (by omega)
  unfold Char.toLower
  rw [htn, if_neg (by omega)]

theorem valid_slot {t : Trellis} {cols : Nat}
    (hatomic : t.atomic = (List.range cols).map (fun i => Char.ofNat (97 + i)))
    (h26 : cols ≤ 26) {c : Char} (hvalid : t.is_valid_action c = true) :
    t.char_to_int c < cols := by
  unfold Trellis.is_valid_action at hvalid
  have hmem : c.toLower ∈ t.atomic := by simpa using hvalid
  rw [hatomic, List.mem_map] at hmem
  obtain ⟨i, hi, hc⟩ := hmem
  rw [List.mem_range] at hi
  unfold Trellis.char_to_int
  rw [← hc, char_toNat_ofNat (by omega)]
  omega

/-! ### Claim C9: safety of one drop -/

/-- C9 counterexample: on the width-0 trellis (cols = 1), the automaton
reached by one legal drop of a sends a second dropped ball to slot (1, 0),
which lies outside the bounds (row 1 has cols - 1 = 0 slots): the source
would raise IndexError there instead of finishing the drop. -/
theorem C9_width0_counterexample :
    ((mkTrellis 1 0).drop_ball 'a').isSome = true ∧
    (((mkTrellis 1 0).drop_ball 'a').getD (mkTrellis 1 0)).is_valid_action 'a' = true ∧
    (((mkTrellis 1 0).drop_ball 'a').getD (mkTrellis 1 0)).ball_position = none ∧
    (1, 0) ∈ (((mkTrellis 1 0).drop_ball 'a').getD (mkTrellis 1 0)).dropPath 'a' ∧
    inBounds (mkTrellis 1 0).rows (mkTrellis 1 0).cols (1, 0) = false := by
  decide

/-- C9 amended: on a trellis with at least two columns (the width-0 case
fails, see the counterexample), dropping a valid letter with no ball in
flight terminates with the ball gone and the path cleared; the visited
slots start at (0, slot), have strictly increasing rows, and all lie in
bounds, so every grid read and flip of the source is in bounds. -/
theorem C9_drop_ball_safety (t : Trellis) (c : Char) (hh : Nat)
    (hrows : t.rows = 2 * hh + 1) (hcols : 2 ≤ t.cols) (h26 : t.cols ≤ 26)
    (hatomic : t.atomic = (List.range t.cols).map (fun i => Char.ofNat (97 + i)))
    (hshape : gridShape t.trellis = gridShape (initialGrid t.rows t.cols))
    (hball : t.ball_position = none) (hvalid : t.is_valid_action c = true) :
    (∃ t', t.drop_ball c = some t' ∧ t'.ball_position = none ∧ t'.ball_path = [] ∧
      gridShape t'.trellis = gridShape t.trellis) ∧
    (t.dropPath c).head? = some (0, t.char_to_int c) ∧
    (∀ q ∈ t.dropPath c, inBounds t.rows t.cols q = true) ∧
    List.Chain' (fun a b => a.1 < b.1) (t.dropPath c) := by
  have hslot : t.char_to_int c < t.cols := valid_slot hatomic h26 hvalid
  obtain ⟨g', path, hf, hhead, hbounds, hchain⟩ :=
    fall_total hh t.cols hcols (2 * hh + 1 + 1) t.trellis (0, t.char_to_int c)
      (by omega) (by simpa using hslot) (by omega)
  have hf' : fall t.rows t.cols (t.rows + 1) t.trellis (0, t.char_to_int c)
      = some (g', path) := by rw [hrows]; exact hf
  have hpath : t.dropPath c = path := by
    unfold Trellis.dropPath
    rw [hf']
  refine ⟨⟨{ t with trellis := g', ball_position := none, ball_path := [] }, ?_, rfl, rfl, ?_⟩,
    ?_, ?_, ?_⟩
  · rw [drop_ball_eq t c hball hvalid, hf']
    rfl
  · show gridShape g' = gridShape t.trellis
    exact fall_shape t.rows t.cols (t.rows + 1) t.trellis _ g' path hf'
  · rw [hpath]
    exact hhead
  · rw [hpath]
    intro q hq
    have := hbounds q hq
    unfold inBounds
    rw [hrows]
    simp only [Bool.and_eq_true, decide_eq_true_eq]
    exact this
  · rw [hpath]
    exact hchain

/-- Witness for C9 at the default trellis and the letter a. -/
theorem C9_drop_ball_safety_witness :
    ((mkTrellis 1 2).rows = 2 * 1 + 1 ∧ 2 ≤ (mkTrellis 1 2).cols ∧
      (mkTrellis 1 2).is_valid_action 'a' = true) ∧
    ((∃ t', (mkTrellis 1 2).drop_ball 'a' = some t' ∧ t'.ball_position = none ∧
        t'.ball_path = [] ∧ gridShape t'.trellis = gridShape (mkTrellis 1 2).trellis) ∧
     ((mkTrellis 1 2).dropPath 'a').head? = some (0, (mkTrellis 1 2).char_to_int 'a') ∧
     (∀ q ∈ (mkTrellis 1 2).dropPath 'a',
        inBounds (mkTrellis 1 2).rows (mkTrellis 1 2).cols q = true) ∧
     List.Chain' (fun a b => a.1 < b.1) ((mkTrellis 1 2).dropPath 'a')) :=
  ⟨⟨rfl, by decide, by decide⟩,
   C9_drop_ball_safety (mkTrellis 1 2) 'a' 1 rfl (by decide) (by decide) rfl rfl rfl (by decide)⟩

/-! ### The word action on grids: totality, injectivity, recurrence -/

theorem dropConfig_total (hh cols : Nat) (hcols : 2 ≤ cols) (slot : Nat)
    (hslot : slot < cols) (g : Grid) :
    ∃ g', dropConfig (2 * hh + 1) cols slot g = some g' ∧ gridShape g' = gridShape g := by
  obtain ⟨g', path, hf, _, _, _⟩ :=
    fall_total hh cols hcols (2 * hh + 1 + 1) g (0, slot) (by omega) (by simpa using hslot)
      (by omega)
  refine ⟨g', ?_, ?_⟩
  · unfold dropConfig
    rw [hf]
    rfl
  · exact fall_shape (2 * hh + 1) cols (2 * hh + 1 + 1) g (0, slot) g' path hf

theorem dropConfig_inj (hh cols : Nat) (hcols : 2 ≤ cols) (slot : Nat)
    (hslot : slot < cols) {g1 g2 g' : Grid}
    (hs1 : gridShape g1 = gridShape (initialGrid (2 * hh + 1) cols))
    (hs2 : gridShape g2 = gridShape (initialGrid (2 * hh + 1) cols))
    (h1 : dropConfig (2 * hh + 1) cols slot g1 = some g')
    (h2 : dropConfig (2 * hh + 1) cols slot g2 = some g') : g1 = g2 := by
  unfold dropConfig at h1 h2
  rw [Option.map_eq_some'] at h1 h2
  obtain ⟨r1, hr1, hre1⟩ := h1
  obtain ⟨r2, hr2, hre2⟩ := h2
  obtain ⟨r1g, r1path⟩ := r1
  obtain ⟨r2g, r2path⟩ := r2
  rw [show r1g = g' from hre1] at hr1
  rw [show r2g = g' from hre2] at hr2
  exact fall_inj hh cols hcols (2 * hh + 1 + 1) g1 g2 (0, slot) g' r1path r2path
    hs1 hs2 (by omega) (by simpa using hslot) hr1 hr2

theorem applyWordConfig_total (hh cols : Nat) (hcols : 2 ≤ cols) :
    ∀ (slots : List Nat) (g : Grid), (∀ s ∈ slots, s < cols) →
      ∃ g', applyWordConfig (2 * hh + 1) cols slots g = some g' ∧
        gridShape g' = gridShape g := by
  intro slots
  induction slots with
  | nil => exact fun g _ => ⟨g, rfl, rfl⟩
  | cons s ss ih =>
      intro g hs
      obtain ⟨g1, h1, hsh1⟩ := dropConfig_total hh cols hcols s
        (hs s (List.mem_cons_self _ _)) g
      obtain ⟨g', h2, hsh2⟩ := ih g1 (fun x hx => hs x (List.mem_cons_of_mem _ hx))
      refine ⟨g', ?_, hsh2.trans hsh1⟩
      unfold applyWordConfig at h2 ⊢
      rw [List.foldlM_cons, h1]
      exact h2

theorem applyWordConfig_inj (hh cols : Nat) (hcols : 2 ≤ cols) :
    ∀ (slots : List Nat) (g1 g2 g' : Grid), (∀ s ∈ slots, s < cols) →
      gridShape g1 = gridShape (initialGrid (2 * hh + 1) cols) →
      gridShape g2 = gridShape (initialGrid (2 * hh + 1) cols) →
      applyWordConfig (2 * hh + 1) cols slots g1 = some g' →
      applyWordConfig (2 * hh + 1) cols slots g2 = some g' → g1 = g2 := by
  intro slots
  induction slots with
  | nil =>
      intro g1 g2 g' _ _ _ h1 h2
      rw [show g1 = g' from Option.some.inj h1, show g2 = g' from Option.some.inj h2]
  | cons s ss ih =>
      intro g1 g2 g' hs hs1 hs2 h1 h2
      unfold applyWordConfig at h1 h2
      rw [List.foldlM_cons] at h1 h2
      rcases hd1 : dropConfig (2 * hh + 1) cols s g1 with _ | m1
      · rw [hd1] at h1
        cases h1
      rcases hd2 : dropConfig (2 * hh + 1) cols s g2 with _ | m2
      · rw [hd2] at h2
        cases h2
      rw [hd1] at h1
      rw [hd2] at h2
      have hsm1 : gridShape m1 = gridShape (initialGrid (2 * hh + 1) cols) := by
        obtain ⟨g'', hg'', hshg⟩ := dropConfig_total hh cols hcols s
          (hs s (List.mem_cons_self _ _)) g1
        rw [hd1] at hg''
        rw [← Option.some.inj hg''] at hshg
        exact hshg.trans hs1
      have hsm2 : gridShape m2 = gridShape (initialGrid (2 * hh + 1) cols) := by
        obtain ⟨g'', hg'', hshg⟩ := dropConfig_total hh cols hcols s
          (hs s (List.mem_cons_self _ _)) g2
        rw [hd2] at hg''
        rw [← Option.some.inj hg''] at hshg
        exact hshg.trans hs2
      have hm : m1 = m2 := ih m1 m2 g' (fun x hx => hs x (List.mem_cons_of_mem _ hx))
        hsm1 hsm2 h1 h2
      rw [hm] at hd1
      exact dropConfig_inj hh cols hcols s (hs s (List.mem_cons_self _ _)) hs1 hs2 hd1 hd2

theorem iterWordConfig_total (hh cols : Nat) (hcols : 2 ≤ cols) (slots : List Nat)
    (hs : ∀ s ∈ slots, s < cols) :
    ∀ k, ∃ g, iterWordConfig (2 * hh + 1) cols slots k = some g ∧
      gridShape g = gridShape (initialGrid (2 * hh + 1) cols) := by
  intro k
  induction k with
  | zero => exact ⟨initialGrid (2 * hh + 1) cols, rfl, rfl⟩
  | succ k ih =>
      obtain ⟨g, hg, hsh⟩ := ih
      obtain ⟨g', hg', hsh'⟩ := applyWordConfig_total hh cols hcols slots g hs
      refine ⟨g', ?_, hsh'.trans hsh⟩
      unfold iterWordConfig
      rw [hg]
      exact hg'

theorem iterWordConfig_cancel (hh cols : Nat) (hcols : 2 ≤ cols) (slots : List Nat)
    (hs : ∀ s ∈ slots, s < cols) :
    ∀ (i j : Nat), i ≤ j →
      iterWordConfig (2 * hh + 1) cols slots i = iterWordConfig (2 * hh + 1) cols slots j →
      iterWordConfig (2 * hh + 1) cols slots (j - i) = some (initialGrid (2 * hh + 1) cols) := by
  intro i
  induction i with
  | zero =>
      intro j _ h
      rw [Nat.sub_zero, ← h]
      rfl
  | succ i ih =>
      intro j hij h
      obtain ⟨j', rfl⟩ : ∃ j', j = j' + 1 := ⟨j - 1, by omega⟩
      obtain ⟨gi, hgi, hshi⟩ := iterWordConfig_total hh cols hcols slots hs i
      obtain ⟨gj, hgj, hshj⟩ := iterWordConfig_total hh cols hcols slots hs j'
      have hi1 : iterWordConfig (2 * hh + 1) cols slots (i + 1)
          = applyWordConfig (2 * hh + 1) cols slots gi := by
        unfold iterWordConfig
        rw [hgi]
        rfl
      have hj1 : iterWordConfig (2 * hh + 1) cols slots (j' + 1)
          = applyWordConfig (2 * hh + 1) cols slots gj := by
        unfold iterWordConfig
        rw [hgj]
        rfl
      obtain ⟨x, hx, _⟩ := applyWordConfig_total hh cols hcols slots gi hs
      have hgg : gi = gj := by
        apply applyWordConfig_inj hh cols hcols slots gi gj x hs hshi hshj hx
        rw [← hj1, ← h, hi1]
        exact hx
      have hrec : iterWordConfig (2 * hh + 1) cols slots i
          = iterWordConfig (2 * hh + 1) cols slots j' := by
        rw [hgi, hgj, hgg]
      have := ih j' (by omega) hrec
      rwa [show j' + 1 - (i + 1) = j' - i from by omega]

theorem numSlots_eq_flatten_length {rows cols : Nat} {g : Grid}
    (hs : gridShape g = gridShape (initialGrid rows cols)) :
    g.flatten.length = numSlots rows cols := by
  rw [List.length_flatten]
  have hg : g.map List.length = gridShape g := rfl
  rw [hg, hs]
  unfold gridShape initialGrid numSlots
  rw [List.map_map]
  congr 1
  apply List.map_congr_left
  intro i _
  simp

theorem encode_lt_of_shape {rows cols : Nat} {g : Grid}
    (hs : gridShape g = gridShape (initialGrid rows cols)) :
    encodeGrid g < 2 ^ numSlots rows cols := by
  rw [encodeGrid_eq_bitsToNat]
  have h := bitsToNat_lt g.flatten
  rwa [numSlots_eq_flatten_length hs] at h

theorem exists_return_le (hh cols : Nat) (hcols : 2 ≤ cols) (slots : List Nat)
    (hs : ∀ s ∈ slots, s < cols) :
    ∃ m, 1 ≤ m ∧ m ≤ 2 ^ numSlots (2 * hh + 1) cols ∧
      iterWordConfig (2 * hh + 1) cols slots m = some (initialGrid (2 * hh + 1) cols) := by
  set N := 2 ^ numSlots (2 * hh + 1) cols with hN
  have hmaps : ∀ k ∈ Finset.range (N + 1),
      encodeGrid ((iterWordConfig (2 * hh + 1) cols slots k).getD []) ∈ Finset.range N := by
    intro k _
    obtain ⟨g, hg, hsh⟩ := iterWordConfig_total hh cols hcols slots hs k
    rw [hg]
    simp only [Option.getD_some, Finset.mem_range]
    exact encode_lt_of_shape hsh
  have hcard : (Finset.range N).card < (Finset.range (N + 1)).card := by
    simp
  obtain ⟨i, hi, j, hj, hij, hEq⟩ :=
    Finset.exists_ne_map_eq_of_card_lt_of_maps_to hcard hmaps
  rw [Finset.mem_range] at hi hj
  -- order the pair
  rcases Nat.lt_or_ge i j with hlt | hge
  · obtain ⟨gi, hgi, hshi⟩ := iterWordConfig_total hh cols hcols slots hs i
    obtain ⟨gj, hgj, hshj⟩ := iterWordConfig_total hh cols hcols slots hs j
    rw [hgi, hgj] at hEq
    simp only [Option.getD_some] at hEq
    have hg : gi = gj := (encode_inj_of_shape (hshi.trans hshj.symm)).1 hEq
    refine ⟨j - i, by omega, by omega, ?_⟩
    exact iterWordConfig_cancel hh cols hcols slots hs i j (by omega) (by rw [hgi, hgj, hg])
  · have hlt : j < i := by omega
    obtain ⟨gi, hgi, hshi⟩ := iterWordConfig_total hh cols hcols slots hs i
    obtain ⟨gj, hgj, hshj⟩ := iterWordConfig_total hh cols hcols slots hs j
    rw [hgi, hgj] at hEq
    simp only [Option.getD_some] at hEq
    have hg : gj = gi := (encode_inj_of_shape (hshj.trans hshi.symm)).1 hEq.symm
    refine ⟨i - j, by omega, by omega, ?_⟩
    exact iterWordConfig_cancel hh cols hcols slots hs j i (by omega) (by rw [hgi, hgj, hg])

/-! ### Well-formed trellis objects and their drops -/

/-- The derived constants of a constructed Trellis(h, w). -/
def TrellisDims (t : Trellis) (hh w : Nat) : Prop :=
  t.rows = 2 * hh + 1 ∧ t.cols = w + 1 ∧ t.period = 2 ^ (2 * hh + 1) ∧
  t.atomic = (List.range t.cols).map (fun i => Char.ofNat (97 + i))

/-- A well-formed automaton state: constructed constants, a grid of the
standard shape, and no ball in flight. -/
def TrellisWF (t : Trellis) (hh w : Nat) : Prop :=
  TrellisDims t hh w ∧ gridShape t.trellis = gridShape (initialGrid t.rows t.cols) ∧
  t.ball_position = none

theorem valid_element_transfer {t u : Trellis} (h : t.atomic = u.atomic) (s : List Char) :
    t.is_valid_element s = u.is_valid_element s := by
  unfold Trellis.is_valid_element Trellis.is_valid_action
  rw [h]

theorem valid_element_repeat {t : Trellis} {chars : List Char}
    (h : t.is_valid_element chars = true) (n : Nat) :
    t.is_valid_element (repeatWord chars n) = true := by
  unfold Trellis.is_valid_element at h ⊢
  unfold repeatWord
  rw [List.all_eq_true] at h ⊢
  intro c hc
  rw [List.mem_flatten] at hc
  obtain ⟨l, hl, hcl⟩ := hc
  rw [List.eq_of_mem_replicate hl] at hcl
  exact h c hcl

theorem drop_ball_wf {hh w : Nat} (hw : 1 ≤ w) (h26 : w + 1 ≤ 26) {t : Trellis} {c : Char}
    (hwf : TrellisWF t hh w) (hvalid : t.is_valid_action c = true) :
    ∃ t', t.drop_ball c = some t' ∧ TrellisWF t' hh w ∧
      t'.rows = t.rows ∧ t'.cols = t.cols ∧ t'.atomic = t.atomic ∧ t'.period = t.period ∧
      dropConfig t.rows t.cols (t.char_to_int c) t.trellis = some t'.trellis := by
  obtain ⟨⟨hrows, hcols, hper, hatomic⟩, hshape, hball⟩ := hwf
  have h26' : t.cols ≤ 26 := by omega
  have hslot : t.char_to_int c < t.cols := valid_slot hatomic h26' hvalid
  have hcols2 : 2 ≤ t.cols := by omega
  obtain ⟨g', hdc0, hsh⟩ := dropConfig_total hh t.cols hcols2 (t.char_to_int c) hslot t.trellis
  have hdc0' : dropConfig (2 * hh + 1) t.cols (t.char_to_int c) t.trellis = some g' := hdc0
  have hdc : dropConfig t.rows t.cols (t.char_to_int c) t.trellis = some g' := by
    rw [hrows]
    exact hdc0'
  refine ⟨{ t with trellis := g', ball_position := none, ball_path := [] },
    ?_, ⟨⟨hrows, hcols, hper, hatomic⟩, ?_, rfl⟩, rfl, rfl, rfl, rfl, hdc⟩
  · rw [drop_ball_eq t c hball hvalid]
    have hdc2 := hdc
    unfold dropConfig at hdc2
    rw [Option.map_eq_some'] at hdc2
    obtain ⟨r, hr, hrg⟩ := hdc2
    rw [hr]
    simp only [Option.map_some']
    rw [hrg]
  · show gridShape g' = gridShape (initialGrid t.rows t.cols)
    exact hsh.trans hshape

theorem drop_balls_wf {hh w : Nat} (hw : 1 ≤ w) (h26 : w + 1 ≤ 26) :
    ∀ (s : List Char) (t : Trellis), TrellisWF t hh w → t.is_valid_element s = true →
    ∃ t', t.drop_balls s = some t' ∧ TrellisWF t' hh w ∧
      t'.rows = t.rows ∧ t'.cols = t.cols ∧ t'.atomic = t.atomic ∧ t'.period = t.period ∧
      applyWordConfig t.rows t.cols (s.map t.char_to_int) t.trellis = some t'.trellis := by
  intro s
  induction s with
  | nil =>
      intro t hwf _
      exact ⟨t, rfl, hwf, rfl, rfl, rfl, rfl, rfl⟩
  | cons c cs ih =>
      intro t hwf hvalid
      have hv : t.is_valid_action c = true ∧ t.is_valid_element cs = true := by
        unfold Trellis.is_valid_element at hvalid ⊢
        rw [List.all_cons, Bool.and_eq_true] at hvalid
        exact hvalid
      obtain ⟨t1, hdb, hwf1, hr1, hc1, ha1, hp1, hdc⟩ := drop_ball_wf hw h26 hwf hv.1
      have hvcs : t1.is_valid_element cs = true := by
        rw [valid_element_transfer ha1]
        exact hv.2
      obtain ⟨t', hdbs, hwf', hr', hc', ha', hp', happ⟩ := ih t1 hwf1 hvcs
      refine ⟨t', ?_, hwf', hr'.trans hr1, hc'.trans hc1, ha'.trans ha1, hp'.trans hp1, ?_⟩
      · unfold Trellis.drop_balls at hdbs ⊢
        rw [List.foldlM_cons, hdb]
        exact hdbs
      · unfold applyWordConfig at happ ⊢
        rw [List.map_cons, List.foldlM_cons, hdc]
        rw [hr1, hc1] at happ
        exact happ

theorem applyWordIter_wf {hh w : Nat} (hw : 1 ≤ w) (h26 : w + 1 ≤ 26) (t : Trellis)
    (hdims : TrellisDims t hh w) (chars : List Char)
    (hvalid : t.is_valid_element chars = true) :
    ∀ k, ∃ u, t.applyWordIter chars k = some u ∧ TrellisWF u hh w ∧
      u.rows = t.rows ∧ u.cols = t.cols ∧ u.atomic = t.atomic ∧ u.period = t.period ∧
      iterWordConfig t.rows t.cols (chars.map t.char_to_int) k = some u.trellis := by
  obtain ⟨hrows, hcols, hper, hatomic⟩ := hdims
  intro k
  induction k with
  | zero =>
      refine ⟨{ t.reset with ball_position := none }, rfl,
        ⟨⟨hrows, hcols, hper, hatomic⟩, rfl, rfl⟩, rfl, rfl, rfl, rfl, rfl⟩
  | succ k ih =>
      obtain ⟨u, hu, hwfu, hru, hcu, hau, hpu, hiter⟩ := ih
      have hvalidu : u.is_valid_element chars = true := by
        rw [valid_element_transfer hau]
        exact hvalid
      obtain ⟨u', hdbs, hwf', hr', hc', ha', hp', happ⟩ :=
        drop_balls_wf hw h26 chars u hwfu hvalidu
      refine ⟨u', ?_, hwf', hr'.trans hru, hc'.trans hcu, ha'.trans hau, hp'.trans hpu, ?_⟩
      · unfold Trellis.applyWordIter
        rw [hu]
        exact hdbs
      · unfold iterWordConfig
        rw [hiter]
        show applyWordConfig t.rows t.cols (chars.map t.char_to_int) u.trellis = some u'.trellis
        rw [hru, hcu] at happ
        exact happ

/-! ### The trellis reduction always halts with the strict rules -/

theorem map_toLower_atomic {t : Trellis}
    (hatomic : t.atomic = (List.range t.cols).map (fun i => Char.ofNat (97 + i)))
    (h26 : t.cols ≤ 26) : t.atomic.map Char.toLower = t.atomic := by
  rw [hatomic]
  have hfix := atomic_member_fixed h26
  calc ((List.range t.cols).map (fun i => Char.ofNat (97 + i))).map Char.toLower
      = ((List.range t.cols).map (fun i => Char.ofNat (97 + i))).map id :=
        List.map_congr_left hfix
    _ = (List.range t.cols).map (fun i => Char.ofNat (97 + i)) := List.map_id _

theorem trellis_reduce_total {hh w : Nat} (h26 : w + 1 ≤ 26) {t : Trellis}
    (hdims : TrellisDims t hh w) (action : List Char)
    (hvalid : t.is_valid_element action = true) :
    ∃ s, t.reduce action true = some (some s) := by
  obtain ⟨hrows, hcols, hper, hatomic⟩ := hdims
  have h26' : t.cols ≤ 26 := by omega
  have hstable := map_toLower_atomic hatomic h26'
  unfold Trellis.reduce GroupActions.reduce
  have hval : (action.map Char.toLower).all
      (fun c => decide (c ∈ t.atomic.map Char.toLower)) = true := by
    rw [List.all_eq_true]
    intro x hx
    rw [List.mem_map] at hx
    obtain ⟨c, hc, rfl⟩ := hx
    have hv : t.is_valid_action c = true := by
      unfold Trellis.is_valid_element at hvalid
      rw [List.all_eq_true] at hvalid
      exact hvalid c hc
    rw [hstable]
    unfold Trellis.is_valid_action at hv
    simpa using hv
  rw [if_pos hval]
  have hrl : ∀ r ∈ t.get_rewrites true,
      r.length = (t.atomic.map Char.toLower).length ∧ r.sum < 0 := by
    intro r hr
    unfold Trellis.get_rewrites at hr
    constructor
    · rw [List.length_map]
      exact GroupActions.getRewrites_length t.atomic t.period true r hr
    · exact GroupActions.getRewrites_sum_neg t.atomic t.period r hr
  obtain ⟨v', hv'⟩ := GroupActions.scanLoop_total (t.atomic.map Char.toLower).length
    (t.get_rewrites true) hrl
    ((GroupActions.toVector (t.atomic.map Char.toLower) (action.map Char.toLower)).sum.toNat + 1)
    (GroupActions.toVector (t.atomic.map Char.toLower) (action.map Char.toLower))
    (GroupActions.toVector_length _ _) (GroupActions.toVector_nonneg _ _) (by omega)
  refine ⟨GroupActions.counterToStr (t.atomic.map Char.toLower) v', ?_⟩
  rw [GroupActions.reduceLoop_eq_scanLoop, hv']
  rfl

/-! ### The identity test against the initial grid -/

theorem initialGrid_is_identity (rows cols : Nat) :
    (initialGrid rows cols).all (fun row => row.all (fun b => b)) = true := by
  rw [List.all_eq_true]
  intro row hrow
  unfold initialGrid at hrow
  rw [List.mem_map] at hrow
  obtain ⟨i, _, rfl⟩ := hrow
  rw [List.all_eq_true]
  intro b hb
  rw [List.eq_of_mem_replicate hb]
  rfl

theorem is_identity_iff {t : Trellis}
    (hs : gridShape t.trellis = gridShape (initialGrid t.rows t.cols)) :
    t.is_identity = true ↔ t.trellis = initialGrid t.rows t.cols := by
  constructor
  · intro h
    apply flatten_inj_of_shape hs
    have h1 : ∀ b ∈ t.trellis.flatten, b = true := by
      unfold Trellis.is_identity at h
      rw [List.all_eq_true] at h
      intro b hb
      rw [List.mem_flatten] at hb
      obtain ⟨row, hrow, hbrow⟩ := hb
      have hall := h row hrow
      rw [List.all_eq_true] at hall
      simpa using hall b hbrow
    have h2 : ∀ b ∈ (initialGrid t.rows t.cols).flatten, b = true := by
      intro b hb
      rw [List.mem_flatten] at hb
      obtain ⟨row, hrow, hbrow⟩ := hb
      unfold initialGrid at hrow
      rw [List.mem_map] at hrow
      obtain ⟨i, _, rfl⟩ := hrow
      exact List.eq_of_mem_replicate hbrow
    have hlen : t.trellis.flatten.length = (initialGrid t.rows t.cols).flatten.length := by
      rw [numSlots_eq_flatten_length hs, numSlots_eq_flatten_length rfl]
    rw [List.eq_replicate_of_mem h1, List.eq_replicate_of_mem h2, hlen]
  · intro h
    unfold Trellis.is_identity
    rw [h]
    exact initialGrid_is_identity t.rows t.cols

/-! ### Correctness of the orbit loop of get_orbit -/

theorem orbitLoop_correct (hh w : Nat) (hw : 1 ≤ w) (h26 : w + 1 ≤ 26)
    (chars : List Char) (k : Nat)
    (hkid : iterWordConfig (2 * hh + 1) (w + 1)
        (chars.map (Trellis.char_to_int (mkTrellis hh w))) k
        = some (initialGrid (2 * hh + 1) (w + 1)))
    (hleast : ∀ j, 1 ≤ j → j < k →
        iterWordConfig (2 * hh + 1) (w + 1)
            (chars.map (Trellis.char_to_int (mkTrellis hh w))) j
          ≠ some (initialGrid (2 * hh + 1) (w + 1))) :
    ∀ (f count : Nat) (orbit : List String) (t : Trellis),
      TrellisWF t hh w → t.is_valid_element chars = true →
      iterWordConfig (2 * hh + 1) (w + 1)
          (chars.map (Trellis.char_to_int (mkTrellis hh w))) count = some t.trellis →
      count < k → k ≤ count + f →
      ∃ res, Trellis.orbitLoop chars [] true (encodeGrid (initialGrid (2 * hh + 1) (w + 1)))
          f count orbit t = some res ∧ res.length = orbit.length + (k - count) := by
  intro f
  induction f with
  | zero =>
      intro count orbit t _ _ _ h1 h2
      omega
  | succ f ih =>
      intro count orbit t hwf hvalid hiter hck hkf
      obtain ⟨⟨hrows, hcols, hper, hatomic⟩, hshape, hball⟩ := hwf
      have hvrep : t.is_valid_element (([] : List Char) ++ repeatWord chars count) = true := by
        rw [List.nil_append]
        exact valid_element_repeat hvalid count
      obtain ⟨s, hs⟩ := trellis_reduce_total h26 ⟨hrows, hcols, hper, hatomic⟩ _ hvrep
      obtain ⟨t', hdbs, hwf', hr', hc', ha', hp', happ⟩ :=
        drop_balls_wf hw h26 chars t ⟨⟨hrows, hcols, hper, hatomic⟩, hshape, hball⟩ hvalid
      have hiter' : iterWordConfig (2 * hh + 1) (w + 1)
          (chars.map (Trellis.char_to_int (mkTrellis hh w))) (count + 1)
          = some t'.trellis := by
        unfold iterWordConfig
        rw [hiter]
        show applyWordConfig (2 * hh + 1) (w + 1)
          (chars.map (Trellis.char_to_int (mkTrellis hh w))) t.trellis = some t'.trellis
        rw [hrows, hcols] at happ
        exact happ
      have hsh' : gridShape t'.trellis = gridShape (initialGrid (2 * hh + 1) (w + 1)) := by
        have := hwf'.2.1
        rw [hr', hc', hrows, hcols] at this
        exact this
      unfold Trellis.orbitLoop
      rw [hs, hdbs]
      show ∃ res,
        (if t'.encoded_trellis = encodeGrid (initialGrid (2 * hh + 1) (w + 1))
          then some (orbit ++ [s])
          else Trellis.orbitLoop chars [] true (encodeGrid (initialGrid (2 * hh + 1) (w + 1)))
            f (count + 1) (orbit ++ [s]) t') = some res ∧
        res.length = orbit.length + (k - count)
      by_cases hid : t'.trellis = initialGrid (2 * hh + 1) (w + 1)
      · have henc : t'.encoded_trellis = encodeGrid (initialGrid (2 * hh + 1) (w + 1)) := by
          unfold Trellis.encoded_trellis
          rw [hid]
        rw [if_pos henc]
        have hk : count + 1 = k := by
          by_contra hne
          exact hleast (count + 1) (by omega) (by omega) (by rw [hiter', hid])
        refine ⟨orbit ++ [s], rfl, ?_⟩
        rw [List.length_append]
        simp only [List.length_singleton]
        omega
      · have henc : ¬ t'.encoded_trellis = encodeGrid (initialGrid (2 * hh + 1) (w + 1)) := by
          intro he
          exact hid ((encode_inj_of_shape hsh').1 he)
        rw [if_neg henc]
        have hck' : count + 1 < k := by
          rcases Nat.lt_or_ge (count + 1) k with h | h
          · exact h
          · exfalso
            apply hid
            have hk : count + 1 = k := by omega
            rw [hk] at hiter'
            rw [hkid] at hiter'
            exact (Option.some.inj hiter').symm
        have hvalid' : t'.is_valid_element chars = true := by
          rw [valid_element_transfer ha']
          exact hvalid
        obtain ⟨res, hres, hlen⟩ := ih (count + 1) (orbit ++ [s]) t' hwf' hvalid' hiter'
          hck' (by omega)
        refine ⟨res, hres, ?_⟩
        rw [hlen, List.length_append]
        simp only [List.length_singleton]
        omega

/-! ### Claim C2: get_period -/

/-- C2 amended, main theorem: on every constructible automaton with width
at least 1 (cols between 2 and 26) and every valid word, get_period halts
and returns the smallest positive k for which k applications of
dropAll(word) to the freshly reset automaton restore the all-LEFT identity
configuration; such a k always exists because each drop is injective on
configurations and the configuration space is finite. -/
theorem C2_get_period_least (hh w : Nat) (hw : 1 ≤ w) (h26 : w + 1 ≤ 26)
    (chars : List Char)
    (hvalid : (mkTrellis hh w).is_valid_element chars = true) :
    ∃ k, (mkTrellis hh w).get_period chars true = some k ∧ 1 ≤ k ∧
      (∃ u, (mkTrellis hh w).applyWordIter chars k = some u ∧ u.is_identity = true) ∧
      (∀ j u, 1 ≤ j → j < k → (mkTrellis hh w).applyWordIter chars j = some u →
        u.is_identity = false) := by
  have hcols2 : 2 ≤ w + 1 := by omega
  have hslots : ∀ s ∈ chars.map (Trellis.char_to_int (mkTrellis hh w)), s < w + 1 := by
    intro s hs
    rw [List.mem_map] at hs
    obtain ⟨c, hc, rfl⟩ := hs
    have hvc : (mkTrellis hh w).is_valid_action c = true := by
      unfold Trellis.is_valid_element at hvalid
      rw [List.all_eq_true] at hvalid
      exact hvalid c hc
    exact @valid_slot (mkTrellis hh w) (w + 1) rfl (by omega) c hvc
  obtain ⟨m, hm1, hmN, hmret⟩ := exists_return_le hh (w + 1) hcols2
    (chars.map (Trellis.char_to_int (mkTrellis hh w))) hslots
  have hPex : ∃ j, iterWordConfig (2 * hh + 1) (w + 1)
      (chars.map (Trellis.char_to_int (mkTrellis hh w))) (j + 1)
      = some (initialGrid (2 * hh + 1) (w + 1)) := by
    refine ⟨m - 1, ?_⟩
    rw [show m - 1 + 1 = m from by omega]
    exact hmret
  have hkid := Nat.find_spec hPex
  have hkmin := fun j (hj : j < Nat.find hPex) => Nat.find_min hPex hj
  have hkle : Nat.find hPex ≤ m - 1 := Nat.find_min' hPex (by
    rw [show m - 1 + 1 = m from by omega]
    exact hmret)
  have hleast : ∀ j, 1 ≤ j → j < Nat.find hPex + 1 →
      iterWordConfig (2 * hh + 1) (w + 1)
        (chars.map (Trellis.char_to_int (mkTrellis hh w))) j
      ≠ some (initialGrid (2 * hh + 1) (w + 1)) := by
    intro j h1 h2 hcontra
    obtain ⟨j', rfl⟩ : ∃ j', j = j' + 1 := ⟨j - 1, by omega⟩
    exact hkmin j' (by omega) hcontra
  have hwf1 : TrellisWF { (mkTrellis hh w).reset with ball_position := none } hh w :=
    ⟨⟨rfl, rfl, rfl, rfl⟩, rfl, rfl⟩
  obtain ⟨res, hres, hlen⟩ := orbitLoop_correct hh w hw h26 chars (Nat.find hPex + 1)
    hkid hleast (2 ^ numSlots (2 * hh + 1) (w + 1) + 1) 0 []
    { (mkTrellis hh w).reset with ball_position := none } hwf1 hvalid rfl (by omega)
    (by omega)
  refine ⟨Nat.find hPex + 1, ?_, by omega, ?_, ?_⟩
  · unfold Trellis.get_period Trellis.get_orbit
    rw [if_pos (by rw [hvalid]; rfl)]
    show Option.map List.length
      (Trellis.orbitLoop chars [] true (encodeGrid (initialGrid (2 * hh + 1) (w + 1)))
        (2 ^ numSlots (2 * hh + 1) (w + 1) + 1) 0 []
        { (mkTrellis hh w).reset with ball_position := none }) = some (Nat.find hPex + 1)
    rw [hres]
    simp only [Option.map_some']
    rw [hlen]
    simp
  · obtain ⟨u, hu, hwfu, hru, hcu, hau, hpu, hiteru⟩ := applyWordIter_wf hw h26
      (mkTrellis hh w) ⟨rfl, rfl, rfl, rfl⟩ chars hvalid (Nat.find hPex + 1)
    refine ⟨u, hu, ?_⟩
    rw [is_identity_iff hwfu.2.1]
    have h1 : iterWordConfig (2 * hh + 1) (w + 1)
        (chars.map (Trellis.char_to_int (mkTrellis hh w))) (Nat.find hPex + 1)
        = some u.trellis := hiteru
    rw [hkid] at h1
    have h2 : initialGrid (2 * hh + 1) (w + 1) = u.trellis := Option.some.inj h1
    rw [hru, hcu]
    exact h2.symm
  · intro j u h1 h2 hju
    obtain ⟨u0, hu0, hwfu, hru, hcu, hau, hpu, hiterj⟩ := applyWordIter_wf hw h26
      (mkTrellis hh w) ⟨rfl, rfl, rfl, rfl⟩ chars hvalid j
    have huu : u0 = u := by
      rw [hu0] at hju
      exact Option.some.inj hju
    subst huu
    cases hb : u0.is_identity with
    | false => rfl
    | true =>
        exfalso
        have hid := (is_identity_iff hwfu.2.1).1 hb
        apply hleast j h1 h2
        have h3 : iterWordConfig (2 * hh + 1) (w + 1)
            (chars.map (Trellis.char_to_int (mkTrellis hh w))) j = some u0.trellis := hiterj
        rw [h3, hid, hru, hcu]
        rfl

/-- C2 counterexample: on the constructible width-0 automaton the claim
fails: already the second application of dropAll(a) inside the period
computation sends the ball to slot (1, 0), which does not exist (row 1 has
cols - 1 = 0 slots), so the Python source raises IndexError during
getPeriod instead of returning a value. -/
theorem C2_width0_counterexample :
    (mkTrellis 1 0).is_valid_element "a".data = true ∧
    ((mkTrellis 1 0).applyWordIter "a".data 1).isSome = true ∧
    (1, 0) ∈ (((mkTrellis 1 0).applyWordIter "a".data 1).getD (mkTrellis 1 0)).dropPath 'a' ∧
    inBounds (mkTrellis 1 0).rows (mkTrellis 1 0).cols (1, 0) = false := by
  decide

/-- Witness for C2 at the default 1x2 trellis and the word a. -/
theorem C2_get_period_least_witness :
    (1 ≤ 2 ∧ 2 + 1 ≤ 26 ∧ (mkTrellis 1 2).is_valid_element "a".data = true) ∧
    (∃ k, (mkTrellis 1 2).get_period "a".data true = some k ∧ 1 ≤ k ∧
      (∃ u, (mkTrellis 1 2).applyWordIter "a".data k = some u ∧ u.is_identity = true) ∧
      (∀ j u, 1 ≤ j → j < k → (mkTrellis 1 2).applyWordIter "a".data j = some u →
        u.is_identity = false)) :=
  ⟨⟨by decide, by decide, by decide⟩,
   C2_get_period_least 1 2 (by decide) (by decide) "a".data (by decide)⟩
